import Mathlib

/-!
# Verification of the tommyds open-addressed hash table (tommyhashopen.c)

This file gives a shallow embedding of `src/tommyds/tommyhashopen.c` and proves
properties of the embedded operations.  The table stores, per bucket slot,
either nothing (`Slot.empty`), a tombstone (`Slot.deleted`), or the head of an
intrusive chain of caller-owned nodes together with the hash value shared by
the chained elements (`Slot.occ chain hash`).

Machine integers are modelled as `Nat`; `hash & bucket_mask` with
`bucket_mask = 2^bucket_bit - 1` is embedded as `hash % 2^bucket_bit`, and
`hash & bucket_mask_cache` (the mask with the low in-cache-line index bits
cleared) as `hash % 2^bit - (hash % 2^bit) % entries_for_cache_line`.
The C probe loops are embedded with explicit fuel (one full pass over the
bucket array); an exhausted fuel models the C loop not terminating.
-/

set_option maxHeartbeats 1000000

/-- A caller-owned element node: an opaque data payload and the stored hash
(`tommy_hashopen_node`, whose `data` and `key` fields are the only ones the
table reads).  The payload is modelled as a `Nat`. -/
structure HNode where
  data : Nat
  key : Nat
  deriving DecidableEq, Repr

/-- One cell of the bucket array (`tommy_hashopen_pos`): the C sentinel values
`TOMMY_HASHOPEN_EMPTY` and `TOMMY_HASHOPEN_DELETED` of the `ptr` field become
the constructors `empty` and `deleted`; an ordinary chain head pointer together
with the slot's `hash` field becomes `occ chain hash`. -/
inductive Slot where
  | empty : Slot
  | deleted : Slot
  | occ : List HNode → Nat → Slot
  deriving DecidableEq, Repr

/-- The table state (`tommy_hashopen`).  `bucket_max`, `bucket_mask` and
`bucket_mask_cache` are derived from `bucket_bit` exactly as the allocator
computes them, so they are not duplicated as fields. -/
structure Hashopen where
  bucket_bit : Nat
  bucket : List Slot
  count : Nat
  filled_count : Nat
  deleted_count : Nat
  deriving DecidableEq, Repr

/-- Modelled from the spec: the fixed minimum capacity exponent
`TOMMY_HASHOPEN_BIT` from the missing header `tommyhashopen.h`.  The spec's
concrete scenario starts "at minimum capacity (e.g., 16 buckets)", so the
minimum exponent is 4. -/
def TOMMY_HASHOPEN_BIT : Nat := 4

/-- Number of slots per 64-byte cache line, `64 / sizeof(tommy_hashopen_pos)`
(line 47 of the source).  On an LP64 platform one slot (a pointer plus a
32-bit hash, padded) is 16 bytes, giving 4 entries per cache line. -/
def entries_for_cache_line : Nat := 4

/-- The capacity `bucket_max = 1 << bucket_bit` (line 50 of the source). -/
def bucketMax (bit : Nat) : Nat := 2 ^ bit

/-- Helper for `tommy_roundup_pow2_u32`: starting from the power of two `acc`,
double until `v <= acc`; the fuel bounds the number of doublings. -/
def roundupAux (v : Nat) : Nat → Nat → Nat
  | 0, acc => acc
  | Nat.succ fuel, acc => if v ≤ acc then acc else roundupAux v fuel (2 * acc)

/-- Modelled from the spec: `tommy_roundup_pow2_u32` from the missing utility
header — the smallest power of two that is `>=` the argument (the resize
policy always calls it with an argument `>= 1`; this model returns 1 at 0). -/
def tommy_roundup_pow2_u32 (v : Nat) : Nat := roundupAux v v 1

/-- Helper for `tommy_ilog2_u32`: halve until the argument reaches 1, counting
the halvings; the fuel bounds the number of steps. -/
def ilogAux : Nat → Nat → Nat
  | 0, _ => 0
  | Nat.succ fuel, v => if v ≤ 1 then 0 else ilogAux fuel (v / 2) + 1

/-- Modelled from the spec: `tommy_ilog2_u32` from the missing utility header —
the floor base-2 logarithm. -/
def tommy_ilog2_u32 (v : Nat) : Nat := ilogAux v v

/-- The start-of-cache-line index for a hash, `hash & bucket_mask_cache` where
`bucket_mask_cache = bucket_mask & ~(entries_for_cache_line - 1)` (line 56 of
the source): the ideal index with its low in-cache-line bits cleared.  With
`len = 2^bucket_bit` this equals `hash % len` rounded down to a multiple of
`entries_for_cache_line`. -/
def cacheLineStart (len h : Nat) : Nat :=
  h % len - h % len % entries_for_cache_line

/-- The stop condition of the probe loop: an `empty` or `deleted` slot is
reusable, an occupied slot stops the probe only when its recorded hash matches
the probed hash. -/
def hashStops (hash : Nat) : Slot → Bool
  | .empty => true
  | .deleted => true
  | .occ _ h => h == hash

/-- Test for the `empty` slot state. -/
def isEmptyS : Slot → Bool
  | .empty => true
  | _ => false

/-- Test for the occupied slot state. -/
def isOccS : Slot → Bool
  | .occ _ _ => true
  | _ => false

/-- Test for the tombstoned slot state. -/
def isDelS : Slot → Bool
  | .deleted => true
  | _ => false

/-- Test for a slot that counts against the load factor (occupied or
tombstoned). -/
def usedS (s : Slot) : Bool := !(isEmptyS s)

/-- Generic linear scan with wraparound: starting at index `i`, return the
first index whose slot satisfies `stop`, stepping `(i + 1) % length` as the C
loops step `(i + 1) & bucket_mask`.  The fuel bounds the number of probes; the
C loops have no such bound and simply never terminate when no stopping slot
exists. -/
def scanFrom (stop : Slot → Bool) (bucket : List Slot) : Nat → Nat → Option Nat
  | 0, _ => none
  | Nat.succ fuel, i =>
    match bucket.get? i with
    | none => none
    | some s => if stop s then some i else scanFrom stop bucket fuel ((i + 1) % bucket.length)

/-- Modelled from the spec: `tommy_hashopen_bucket`, the probe routine, lives
in the missing header `tommyhashopen.h`; §4.2 of the spec specifies it as a
linear scan with wraparound from the ideal index `hash & bucket_mask` that
stops at the first `Empty` or `Tombstoned` slot or at an occupied slot whose
recorded hash matches.  One full pass over the array is the fuel. -/
def tommy_hashopen_bucket (t : Hashopen) (hash : Nat) : Option Nat :=
  scanFrom (hashStops hash) t.bucket t.bucket.length (hash % bucketMax t.bucket_bit)

/-- Modelled from the spec: `tommy_list_insert_first` from the missing
`tommylist.h` — starting a new one-element chain in an empty chain head. -/
def tommy_list_insert_first (node : HNode) : List HNode := [node]

/-- Modelled from the spec: `tommy_list_insert_tail_not_empty` from the missing
`tommylist.h` — appending a node at the tail of a non-empty chain. -/
def tommy_list_insert_tail_not_empty (chain : List HNode) (node : HNode) : List HNode :=
  chain ++ [node]

/-- Modelled from the spec: `tommy_list_remove_existing` from the missing
`tommylist.h` — unlinking a known node from its chain.  The intrusive list
removes the node by identity; in the value model this is removal of the first
occurrence, which is observationally the same because equal values are
indistinguishable. -/
def tommy_list_remove_existing : List HNode → HNode → List HNode
  | [], _ => []
  | x :: xs, node => if x = node then xs else x :: tommy_list_remove_existing xs node

/-- The bucket array produced by `tommy_hashopen_alloc` (lines 39–62): `2^bit`
zeroed ( = empty) slots.  The extra `entries_for_cache_line` slots the C code
allocates are alignment padding beyond `bucket_max` and are never indexed, so
they are not part of the logical array. -/
def tommy_hashopen_alloc (bit : Nat) : List Slot :=
  List.replicate (bucketMax bit) Slot.empty

/-- `tommy_hashopen_init` (lines 64–74): a fresh table at the fixed initial
size with all counters zero. -/
def tommy_hashopen_init : Hashopen :=
  { bucket_bit := TOMMY_HASHOPEN_BIT
    bucket := tommy_hashopen_alloc TOMMY_HASHOPEN_BIT
    count := 0
    filled_count := 0
    deleted_count := 0 }

/-- One step of the reinsertion loop of `tommy_hashopen_resize` (lines
103–128): an old slot that is neither empty nor deleted is copied—chain head
and recorded hash as one unit—into the first empty slot found scanning forward
with wraparound from `hash & bucket_mask_cache`; other old slots are skipped. -/
def placeSlot (nb : List Slot) (s : Slot) : List Slot :=
  match s with
  | .occ chain h =>
    match scanFrom isEmptyS nb nb.length (cacheLineStart nb.length h) with
    | some k => nb.set k (.occ chain h)
    | none => nb
  | _ => nb

/-- `tommy_hashopen_resize` (lines 84–131): allocate a fresh array of
`2^new_bucket_bit` empty slots, reset `deleted_count`, and reinsert every
occupied old slot in index order. -/
def tommy_hashopen_resize (t : Hashopen) (new_bucket_bit : Nat) : Hashopen :=
  { bucket_bit := new_bucket_bit
    bucket := t.bucket.foldl placeSlot (tommy_hashopen_alloc new_bucket_bit)
    count := t.count
    filled_count := t.filled_count
    deleted_count := 0 }

/-- `hashopen_grow_step` (lines 136–147): grow when
`filled_count + deleted_count >= bucket_max / 2`, to one bit more than the
rounded-up size of `filled_count + deleted_count + 1`. -/
def hashopen_grow_step (t : Hashopen) : Hashopen :=
  if bucketMax t.bucket_bit / 2 ≤ t.filled_count + t.deleted_count then
    tommy_hashopen_resize t
      (tommy_ilog2_u32 (tommy_roundup_pow2_u32 (t.filled_count + t.deleted_count + 1)) + 1)
  else t

/-- `hashopen_shrink_step` (lines 152–161): shrink when
`filled_count <= bucket_max / 8` and the capacity exponent exceeds
`TOMMY_HASHOPEN_BIT`, to one bit more than the rounded-up size of
`filled_count + 1`. -/
def hashopen_shrink_step (t : Hashopen) : Hashopen :=
  if t.filled_count ≤ bucketMax t.bucket_bit / 8 ∧ TOMMY_HASHOPEN_BIT < t.bucket_bit then
    tommy_hashopen_resize t
      (tommy_ilog2_u32 (tommy_roundup_pow2_u32 (t.filled_count + 1)) + 1)
  else t

/-- The body of `tommy_hashopen_insert` (lines 163–185) before the final grow
check: probe for the slot of `hash`, then branch on the slot state.  The C
code links the node first and stamps `node->data`/`node->key` afterwards;
since the chain holds the node itself, the stamped node is what the chain
contains, so the model stamps first.  `none` models the probe loop not
terminating. -/
def hashopen_insert_core (t : Hashopen) (node : HNode) (data hash : Nat) : Option Hashopen :=
  match tommy_hashopen_bucket t hash with
  | none => none
  | some i =>
    let nd : HNode := { node with data := data, key := hash }
    match t.bucket.get? i with
    | some Slot.empty =>
      some { t with
              bucket := t.bucket.set i (Slot.occ (tommy_list_insert_first nd) hash),
              filled_count := t.filled_count + 1,
              count := t.count + 1 }
    | some Slot.deleted =>
      some { t with
              bucket := t.bucket.set i (Slot.occ (tommy_list_insert_first nd) hash),
              filled_count := t.filled_count + 1,
              deleted_count := t.deleted_count - 1,
              count := t.count + 1 }
    | some (Slot.occ chain h) =>
      some { t with
              bucket := t.bucket.set i (Slot.occ (tommy_list_insert_tail_not_empty chain nd) h),
              count := t.count + 1 }
    | none => none

/-- `tommy_hashopen_insert` (lines 163–188): the branch on the probed slot,
the counter updates, then `hashopen_grow_step`. -/
def tommy_hashopen_insert (t : Hashopen) (node : HNode) (data hash : Nat) : Option Hashopen :=
  (hashopen_insert_core t node data hash).map hashopen_grow_step

/-- `tommy_hashopen_remove_existing` (lines 190–210): probe by the node's
stored key, unlink the node, tombstone the slot when its chain became empty,
decrement `count`, run the shrink check and return the payload.  The function
has the precondition that the node is present; probing into an empty or
tombstoned slot is undefined behaviour in C and is modelled as `none`. -/
def tommy_hashopen_remove_existing (t : Hashopen) (node : HNode) : Option (Hashopen × Nat) :=
  match tommy_hashopen_bucket t node.key with
  | none => none
  | some i =>
    match t.bucket.get? i with
    | some (Slot.occ chain h) =>
      let chain2 := tommy_list_remove_existing chain node
      let mid :=
        if chain2 = [] then
          { t with
              bucket := t.bucket.set i Slot.deleted,
              filled_count := t.filled_count - 1,
              deleted_count := t.deleted_count + 1,
              count := t.count - 1 }
        else
          { t with
              bucket := t.bucket.set i (Slot.occ chain2 h),
              count := t.count - 1 }
      some (hashopen_shrink_step mid, node.data)
    | _ => none

/-- The chain walk of `tommy_hashopen_remove` (lines 224–243): find the first
node whose payload the comparison callback matches, and return it together
with the chain with that node unlinked; `none` when the chain is exhausted.
`cmp nd.data = true` embeds `cmp(cmp_arg, nd->data) == 0`. -/
def hashopen_chain_remove (cmp : Nat → Bool) : List HNode → Option (HNode × List HNode)
  | [] => none
  | x :: xs =>
    if cmp x.data then some (x, xs)
    else
      match hashopen_chain_remove cmp xs with
      | none => none
      | some (j, ys) => some (j, x :: ys)

/-- `tommy_hashopen_remove` (lines 212–246): probe for the hash; an empty or
tombstoned slot means "missing" (payload `none`, table untouched); otherwise
walk the chain for the first predicate match, unlink it, tombstone the slot
when the chain became empty, decrement `count`, run the shrink check and
return the payload.  The outer `none` models the probe loop not
terminating. -/
def tommy_hashopen_remove (t : Hashopen) (cmp : Nat → Bool) (hash : Nat) :
    Option (Hashopen × Option Nat) :=
  match tommy_hashopen_bucket t hash with
  | none => none
  | some i =>
    match t.bucket.get? i with
    | some Slot.empty => some (t, none)
    | some Slot.deleted => some (t, none)
    | some (Slot.occ chain h) =>
      match hashopen_chain_remove cmp chain with
      | none => some (t, none)
      | some (j, chain2) =>
        let mid :=
          if chain2 = [] then
            { t with
                bucket := t.bucket.set i Slot.deleted,
                filled_count := t.filled_count - 1,
                deleted_count := t.deleted_count + 1,
                count := t.count - 1 }
          else
            { t with
                bucket := t.bucket.set i (Slot.occ chain2 h),
                count := t.count - 1 }
        some (hashopen_shrink_step mid, some j.data)
    | none => none

/-- Size in bytes of one bucket slot `tommy_hashopen_pos` on an LP64 platform
(a pointer plus a 32-bit hash, padded to 16). -/
def sizeof_hashopen_pos : Nat := 16

/-- Size in bytes of one element node `tommy_hashopen_node` on an LP64
platform (three pointers plus a 32-bit key, padded to 32). -/
def sizeof_hashopen_node : Nat := 32

/-- `tommy_hashopen_memory_usage` (lines 248–252): bucket capacity times the
slot size plus element count times the node size. -/
def tommy_hashopen_memory_usage (t : Hashopen) : Nat :=
  bucketMax t.bucket_bit * sizeof_hashopen_pos + t.count * sizeof_hashopen_node

/-- The number of slot entries `tommy_hashopen_alloc` actually requests from
`tommy_calloc` (line 52): the capacity plus one cache line of alignment
padding. -/
def hashopen_alloc_entries (bit : Nat) : Nat :=
  bucketMax bit + entries_for_cache_line

/-- A public operation on the table: insert, remove a known node, or remove
the first element matching a predicate under a hash. -/
inductive Op where
  | ins : HNode → Nat → Nat → Op
  | rmx : HNode → Op
  | rmp : (Nat → Bool) → Nat → Op

/-- Run one public operation; `none` when the operation does not complete
(probe divergence or a violated precondition). -/
def runOp (t : Hashopen) : Op → Option Hashopen
  | .ins node data hash => tommy_hashopen_insert t node data hash
  | .rmx node => (tommy_hashopen_remove_existing t node).map Prod.fst
  | .rmp cmp hash => (tommy_hashopen_remove t cmp hash).map Prod.fst

/-- Run a sequence of public operations from a starting table. -/
def runOps : Hashopen → List Op → Option Hashopen
  | t, [] => some t
  | t, op :: ops =>
    match runOp t op with
    | none => none
    | some t2 => runOps t2 ops

/-- An element is reachable in a table when the probe by its stored hash stops
at an occupied slot whose chain contains it. -/
def hashReachable (t : Hashopen) (nd : HNode) : Bool :=
  match tommy_hashopen_bucket t nd.key with
  | none => false
  | some i =>
    match t.bucket.get? i with
    | some (Slot.occ chain _) => chain.contains nd
    | _ => false

/-- The probe scan started at the start-of-cache-line index
`hash & bucket_mask_cache` instead of the ideal index `hash & bucket_mask` —
the index from which the resize reinsertion scans. -/
def searchCache (t : Hashopen) (hash : Nat) : Option Nat :=
  scanFrom (hashStops hash) t.bucket t.bucket.length (cacheLineStart t.bucket.length hash)

/-- Reachability when the probe scan starts at the start-of-cache-line index
used by the resize reinsertion. -/
def hashReachableCache (t : Hashopen) (nd : HNode) : Bool :=
  match searchCache t nd.key with
  | none => false
  | some i =>
    match t.bucket.get? i with
    | some (Slot.occ chain _) => chain.contains nd
    | _ => false

/-- The recorded hashes of the occupied slots, in index order. -/
def occHashes (l : List Slot) : List Nat :=
  l.filterMap fun s =>
    match s with
    | .occ _ h => some h
    | _ => none

/-- Well-formedness of a table state: the bucket array has exactly
`bucket_max` slots, the two slot counters count what they claim to count, and
the load is strictly below capacity. -/
structure WF (t : Hashopen) : Prop where
  hlen : t.bucket.length = bucketMax t.bucket_bit
  hfill : t.filled_count = t.bucket.countP isOccS
  hdel : t.deleted_count = t.bucket.countP isDelS
  hload : t.filled_count + t.deleted_count < bucketMax t.bucket_bit

/-! ## Modular index stepping -/

theorem mod_step (len st j : Nat) :
    ((st + 1) % len + j) % len = (st + (j + 1)) % len := by
  rw [Nat.mod_add_mod]
  congr 1
  omega

theorem exists_step_to (len st i : Nat) (hst : st < len) (hi : i < len) :
    ∃ m, m < len ∧ (st + m) % len = i := by
  refine ⟨(i + len - st) % len, Nat.mod_lt _ (by omega), ?_⟩
  rw [Nat.add_mod_mod]
  have h2 : st + (i + len - st) = i + len := by omega
  rw [h2, Nat.add_mod_right, Nat.mod_eq_of_lt hi]

theorem cacheLineStart_lt (len h : Nat) (hlen : 0 < len) : cacheLineStart len h < len := by
  have := Nat.mod_lt h hlen
  unfold cacheLineStart
  omega

/-! ## Characterization of the linear scan -/

theorem scanFrom_some_char (stop : Slot → Bool) (bucket : List Slot) :
    ∀ (fuel st k : Nat), st < bucket.length →
      scanFrom stop bucket fuel st = some k →
      ∃ m, m < fuel ∧ k = (st + m) % bucket.length ∧
        (∃ s, bucket.get? k = some s ∧ stop s = true) ∧
        (∀ j, j < m → ∃ s, bucket.get? ((st + j) % bucket.length) = some s ∧ stop s = false) := by
  intro fuel
  induction fuel with
  | zero =>
    intro st k hst h
    simp [scanFrom] at h
  | succ fuel ih =>
    intro st k hst h
    cases hg : bucket.get? st with
    | none =>
      rw [List.get?_eq_none] at hg
      omega
    | some s =>
      simp only [scanFrom, hg] at h
      by_cases hs : stop s
      · rw [if_pos hs] at h
        injection h with h
        subst h
        refine ⟨0, by omega, by rw [Nat.add_zero, Nat.mod_eq_of_lt hst], ⟨s, hg, hs⟩, ?_⟩
        intro j hj
        omega
      · rw [if_neg hs] at h
        have hlen : 0 < bucket.length := by omega
        have hst2 : (st + 1) % bucket.length < bucket.length := Nat.mod_lt _ hlen
        obtain ⟨m, hm, hkm, hstop, hpre⟩ := ih ((st + 1) % bucket.length) k hst2 h
        refine ⟨m + 1, by omega, ?_, hstop, ?_⟩
        · rw [hkm, mod_step]
        · intro j hj
          cases j with
          | zero =>
            refine ⟨s, ?_, by simpa using hs⟩
            rw [Nat.add_zero, Nat.mod_eq_of_lt hst]
            exact hg
          | succ j' =>
            have := hpre j' (by omega)
            rwa [mod_step] at this

theorem scanFrom_eq_some_of_char (stop : Slot → Bool) (bucket : List Slot) :
    ∀ (fuel st m : Nat), st < bucket.length → m < fuel →
      (∃ s, bucket.get? ((st + m) % bucket.length) = some s ∧ stop s = true) →
      (∀ j, j < m → ∃ s, bucket.get? ((st + j) % bucket.length) = some s ∧ stop s = false) →
      scanFrom stop bucket fuel st = some ((st + m) % bucket.length) := by
  intro fuel
  induction fuel with
  | zero =>
    intro st m hst hm
    omega
  | succ fuel ih =>
    intro st m hst hm hstop hpre
    cases hg : bucket.get? st with
    | none =>
      rw [List.get?_eq_none] at hg
      omega
    | some s =>
      simp only [scanFrom, hg]
      cases m with
      | zero =>
        obtain ⟨s', hg', hs'⟩ := hstop
        have hidx : (st + 0) % bucket.length = st := by
          rw [Nat.add_zero, Nat.mod_eq_of_lt hst]
        rw [hidx] at hg'
        rw [hg] at hg'
        injection hg' with hss
        subst hss
        rw [hidx, if_pos hs']
      | succ m' =>
        obtain ⟨s0, hg0, hs0⟩ := hpre 0 (by omega)
        rw [Nat.add_zero, Nat.mod_eq_of_lt hst, hg] at hg0
        injection hg0 with hss
        subst hss
        rw [if_neg (by simp [hs0])]
        have hlen : 0 < bucket.length := by omega
        have hst2 : (st + 1) % bucket.length < bucket.length := Nat.mod_lt _ hlen
        have hres := ih ((st + 1) % bucket.length) m' hst2 (by omega) ?_ ?_
        · rw [hres, mod_step]
        · rw [mod_step]
          exact hstop
        · intro j hj
          rw [mod_step]
          exact hpre (j + 1) (by omega)

theorem scanFrom_isSome (stop : Slot → Bool) (bucket : List Slot) :
    ∀ (fuel st : Nat), st < bucket.length →
      (∃ m, m < fuel ∧ ∃ s, bucket.get? ((st + m) % bucket.length) = some s ∧ stop s = true) →
      ∃ k, scanFrom stop bucket fuel st = some k := by
  intro fuel
  induction fuel with
  | zero =>
    intro st hst h
    obtain ⟨m, hm, _⟩ := h
    omega
  | succ fuel ih =>
    intro st hst h
    cases hg : bucket.get? st with
    | none =>
      rw [List.get?_eq_none] at hg
      omega
    | some s =>
      by_cases hs : stop s
      · exact ⟨st, by simp only [scanFrom, hg, if_pos hs]⟩
      · obtain ⟨m, hm, s', hg', hs'⟩ := h
        cases m with
        | zero =>
          rw [Nat.add_zero, Nat.mod_eq_of_lt hst, hg] at hg'
          injection hg' with hss
          subst hss
          exact absurd hs' (by simpa using hs)
        | succ m' =>
          have hlen : 0 < bucket.length := by omega
          have hst2 : (st + 1) % bucket.length < bucket.length := Nat.mod_lt _ hlen
          obtain ⟨k, hk⟩ := ih ((st + 1) % bucket.length) hst2
            ⟨m', by omega, s', by rw [mod_step]; exact hg', hs'⟩
          exact ⟨k, by simp only [scanFrom, hg, if_neg hs]; exact hk⟩

theorem scanFrom_isSome_of_index (stop : Slot → Bool) (bucket : List Slot) (st : Nat)
    (hst : st < bucket.length)
    (h : ∃ i s, i < bucket.length ∧ bucket.get? i = some s ∧ stop s = true) :
    ∃ k, scanFrom stop bucket bucket.length st = some k := by
  obtain ⟨i, s, hi, hg, hs⟩ := h
  obtain ⟨m, hm, hmi⟩ := exists_step_to bucket.length st i hst hi
  exact scanFrom_isSome stop bucket bucket.length st hst ⟨m, hm, ⟨s, by rw [hmi]; exact hg, hs⟩⟩

/-! ## Counting slots -/

theorem countP_used_eq (l : List Slot) :
    l.countP usedS = l.countP isOccS + l.countP isDelS := by
  induction l with
  | nil => simp
  | cons s rest ih =>
    rw [List.countP_cons, List.countP_cons, List.countP_cons, ih]
    cases s <;> simp [usedS, isEmptyS, isOccS, isDelS] <;> omega

theorem countP_set_of_get? (p : Slot → Bool) :
    ∀ (l : List Slot) (i : Nat) (s0 v : Slot), l.get? i = some s0 →
      (l.set i v).countP p + (if p s0 then 1 else 0) = l.countP p + (if p v then 1 else 0) := by
  intro l
  induction l with
  | nil =>
    intro i s0 v h
    simp at h
  | cons a rest ih =>
    intro i s0 v h
    cases i with
    | zero =>
      simp only [List.get?] at h
      injection h with h
      subst h
      simp only [List.set, List.countP_cons]
      omega
    | succ i2 =>
      simp only [List.get?] at h
      simp only [List.set, List.countP_cons]
      have := ih i2 s0 v h
      omega

theorem one_le_countP_of_get? (p : Slot → Bool) (l : List Slot) (i : Nat) (s : Slot)
    (h : l.get? i = some s) (hp : p s = true) : 1 ≤ l.countP p :=
  List.countP_pos.mpr ⟨s, List.get?_mem h, hp⟩

theorem exists_empty_slot (l : List Slot) (h : l.countP usedS < l.length) :
    ∃ i, i < l.length ∧ l.get? i = some Slot.empty := by
  have hlen := List.length_eq_countP_add_countP usedS l
  have hpos : 0 < l.countP (fun a => decide ¬usedS a = true) := by omega
  obtain ⟨s, hmem, hs⟩ := List.countP_pos.mp hpos
  have hs2 : usedS s = false := by simpa using hs
  have hse : s = Slot.empty := by
    cases s with
    | empty => rfl
    | deleted => simp [usedS, isEmptyS] at hs2
    | occ chain hh => simp [usedS, isEmptyS] at hs2
  subst hse
  obtain ⟨n, hn⟩ := List.mem_iff_get?.mp hmem
  obtain ⟨hlt, _⟩ := List.get?_eq_some.mp hn
  exact ⟨n, hlt, hn⟩

theorem no_slot_of_countP_zero (p : Slot → Bool) (l : List Slot) (h : l.countP p = 0)
    (i : Nat) (s : Slot) (hg : l.get? i = some s) : p s = false := by
  have := List.countP_eq_zero.mp h s (List.get?_mem hg)
  simpa using this

/-! ## Occupied-slot hashes -/

theorem occHashes_append (l1 l2 : List Slot) :
    occHashes (l1 ++ l2) = occHashes l1 ++ occHashes l2 :=
  List.filterMap_append l1 l2 _

theorem mem_occHashes (l : List Slot) (chain : List HNode) (h : Nat)
    (hm : Slot.occ chain h ∈ l) : h ∈ occHashes l :=
  List.mem_filterMap.mpr ⟨Slot.occ chain h, hm, rfl⟩

/-! ## Specialized forms of the count-after-set equation -/

theorem countP_set_ff (p : Slot → Bool) (l : List Slot) (i : Nat) (s0 v : Slot)
    (h : l.get? i = some s0) (h0 : p s0 = false) (hv : p v = false) :
    (l.set i v).countP p = l.countP p := by
  have h3 := countP_set_of_get? p l i s0 v h
  rw [h0, hv] at h3
  simpa using h3

theorem countP_set_ft (p : Slot → Bool) (l : List Slot) (i : Nat) (s0 v : Slot)
    (h : l.get? i = some s0) (h0 : p s0 = false) (hv : p v = true) :
    (l.set i v).countP p = l.countP p + 1 := by
  have h3 := countP_set_of_get? p l i s0 v h
  rw [h0, hv] at h3
  simpa using h3

theorem countP_set_tf (p : Slot → Bool) (l : List Slot) (i : Nat) (s0 v : Slot)
    (h : l.get? i = some s0) (h0 : p s0 = true) (hv : p v = false) :
    (l.set i v).countP p + 1 = l.countP p := by
  have h3 := countP_set_of_get? p l i s0 v h
  rw [h0, hv] at h3
  simpa using h3

theorem countP_set_tt (p : Slot → Bool) (l : List Slot) (i : Nat) (s0 v : Slot)
    (h : l.get? i = some s0) (h0 : p s0 = true) (hv : p v = true) :
    (l.set i v).countP p = l.countP p := by
  have h3 := countP_set_of_get? p l i s0 v h
  rw [h0, hv] at h3
  simpa using h3

/-! ## The reinsertion loop of resize: counting invariant -/

/-- Invariant of the resize reinsertion loop, counting part: after processing
a prefix `processed` of the old bucket array, the new array `nb` still has `L`
slots, holds no tombstones, and holds exactly one occupied slot per occupied
processed slot. -/
structure PlaceBasic (L : Nat) (processed nb : List Slot) : Prop where
  hlen : nb.length = L
  hdel : nb.countP isDelS = 0
  hocc : nb.countP isOccS = processed.countP isOccS

theorem countP_singleton (p : Slot → Bool) (s : Slot) :
    [s].countP p = if p s then 1 else 0 := by
  rw [List.countP_cons]
  simp

theorem placeBasic_step (L : Nat) (processed nb : List Slot) (s : Slot)
    (inv : PlaceBasic L processed nb)
    (hcap : (processed ++ [s]).countP isOccS ≤ L) :
    PlaceBasic L (processed ++ [s]) (placeSlot nb s) := by
  cases s with
  | empty =>
    refine ⟨inv.hlen, inv.hdel, ?_⟩
    rw [show placeSlot nb Slot.empty = nb from rfl, inv.hocc, List.countP_append,
      countP_singleton]
    simp [isOccS]
  | deleted =>
    refine ⟨inv.hlen, inv.hdel, ?_⟩
    rw [show placeSlot nb Slot.deleted = nb from rfl, inv.hocc, List.countP_append,
      countP_singleton]
    simp [isOccS]
  | occ chain h =>
    have hocc1 : (processed ++ [Slot.occ chain h]).countP isOccS
        = processed.countP isOccS + 1 := by
      rw [List.countP_append, countP_singleton]
      simp [isOccS]
    have hused : nb.countP usedS = processed.countP isOccS := by
      rw [countP_used_eq, inv.hdel, inv.hocc]
      omega
    have hlt : nb.countP usedS < nb.length := by
      rw [hused, inv.hlen]
      omega
    obtain ⟨i0, hi0, hg0⟩ := exists_empty_slot nb hlt
    have hL : 0 < nb.length := by omega
    have hstart : cacheLineStart nb.length h < nb.length := cacheLineStart_lt _ _ hL
    obtain ⟨k, hk⟩ := scanFrom_isSome_of_index isEmptyS nb _ hstart
      ⟨i0, Slot.empty, hi0, hg0, rfl⟩
    have hps : placeSlot nb (Slot.occ chain h) = nb.set k (Slot.occ chain h) := by
      simp only [placeSlot, hk]
    obtain ⟨m, hm, hkeq, ⟨sk, hgk, hsk⟩, hpre⟩ :=
      scanFrom_some_char isEmptyS nb nb.length _ k hstart hk
    have hske : sk = Slot.empty := by
      cases sk with
      | empty => rfl
      | deleted => simp [isEmptyS] at hsk
      | occ c hh => simp [isEmptyS] at hsk
    subst hske
    rw [hps]
    refine ⟨?_, ?_, ?_⟩
    · rw [List.length_set, inv.hlen]
    · rw [countP_set_ff isDelS nb k Slot.empty (Slot.occ chain h) hgk rfl rfl]
      exact inv.hdel
    · rw [countP_set_ft isOccS nb k Slot.empty (Slot.occ chain h) hgk rfl rfl, hocc1, inv.hocc]

theorem placeBasic_fold (L : Nat) :
    ∀ (rest processed nb : List Slot),
      PlaceBasic L processed nb →
      (processed ++ rest).countP isOccS ≤ L →
      PlaceBasic L (processed ++ rest) (rest.foldl placeSlot nb) := by
  intro rest
  induction rest with
  | nil =>
    intro processed nb inv hcap
    simpa using inv
  | cons s rest2 ih =>
    intro processed nb inv hcap
    have hcap1 : (processed ++ [s]).countP isOccS ≤ L := by
      rw [List.countP_append] at hcap ⊢
      rw [List.countP_cons] at hcap
      rw [countP_singleton]
      omega
    have hstep := placeBasic_step L processed nb s inv hcap1
    have hcap2 : ((processed ++ [s]) ++ rest2).countP isOccS ≤ L := by
      rw [List.append_assoc, List.singleton_append]
      exact hcap
    have hres := ih (processed ++ [s]) (placeSlot nb s) hstep hcap2
    rw [List.append_assoc, List.singleton_append] at hres
    exact hres

theorem placeBasic_resize (t : Hashopen) (b : Nat)
    (hcap : t.bucket.countP isOccS ≤ bucketMax b) :
    PlaceBasic (bucketMax b) t.bucket (tommy_hashopen_resize t b).bucket := by
  have base : PlaceBasic (bucketMax b) [] (tommy_hashopen_alloc b) := by
    refine ⟨?_, ?_, ?_⟩
    · simp [tommy_hashopen_alloc]
    · simp [tommy_hashopen_alloc, List.countP_replicate, isDelS]
    · simp [tommy_hashopen_alloc, List.countP_replicate, isOccS]
  have hres := placeBasic_fold (bucketMax b) t.bucket [] (tommy_hashopen_alloc b) base
    (by simpa using hcap)
  simpa [tommy_hashopen_resize] using hres

/-! ## The resize targets of the grow and shrink steps -/

theorem roundupAux_spec (v : Nat) :
    ∀ (fuel j : Nat), v ≤ 2 ^ (j + fuel) → (∀ i, i < j → 2 ^ i < v) →
      ∃ k, roundupAux v fuel (2 ^ j) = 2 ^ k ∧ v ≤ 2 ^ k ∧ (∀ i, i < k → 2 ^ i < v) := by
  intro fuel
  induction fuel with
  | zero =>
    intro j hle hmin
    exact ⟨j, rfl, by simpa using hle, hmin⟩
  | succ fuel ih =>
    intro j hle hmin
    by_cases hc : v ≤ 2 ^ j
    · exact ⟨j, by rw [roundupAux, if_pos hc], hc, hmin⟩
    · have hstep : roundupAux v (fuel + 1) (2 ^ j) = roundupAux v fuel (2 ^ (j + 1)) := by
        rw [roundupAux, if_neg hc]
        congr 1
        rw [pow_succ]
        ring
      rw [hstep]
      refine ih (j + 1) (by rw [Nat.add_right_comm]; exact hle) ?_
      intro i hi
      rcases Nat.lt_succ_iff_lt_or_eq.mp hi with hi2 | hi2
      · exact hmin i hi2
      · subst hi2
        omega

theorem roundup_spec (v : Nat) :
    ∃ k, tommy_roundup_pow2_u32 v = 2 ^ k ∧ v ≤ 2 ^ k ∧ (∀ i, i < k → 2 ^ i < v) := by
  have h0 : v ≤ 2 ^ (0 + v) := by
    rw [Nat.zero_add]
    exact Nat.le_of_lt (Nat.lt_two_pow v)
  have := roundupAux_spec v v 0 h0 (by omega)
  simpa [tommy_roundup_pow2_u32] using this

theorem ilogAux_pow : ∀ (fuel k : Nat), 2 ^ k ≤ fuel + 1 → ilogAux fuel (2 ^ k) = k := by
  intro fuel
  induction fuel with
  | zero =>
    intro k hk
    have hk0 : k = 0 := by
      by_contra hne
      have : 2 ≤ 2 ^ k := by
        calc 2 = 2 ^ 1 := by norm_num
        _ ≤ 2 ^ k := Nat.pow_le_pow_right (by norm_num) (by omega)
      omega
    subst hk0
    rfl
  | succ fuel ih =>
    intro k hk
    cases k with
    | zero => rw [ilogAux, if_pos (by norm_num)]
    | succ k2 =>
      have h2 : 2 ≤ 2 ^ (k2 + 1) := by
        calc 2 = 2 ^ 1 := by norm_num
        _ ≤ 2 ^ (k2 + 1) := Nat.pow_le_pow_right (by norm_num) (by omega)
      rw [ilogAux, if_neg (by omega)]
      have hdiv : 2 ^ (k2 + 1) / 2 = 2 ^ k2 := by
        rw [pow_succ]
        exact Nat.mul_div_cancel _ (by norm_num)
      rw [hdiv, ih k2 ?_]
      have hpow : 2 ^ k2 + 2 ^ k2 = 2 ^ (k2 + 1) := by
        rw [pow_succ]
        ring
      have h1 : 1 ≤ 2 ^ k2 := Nat.one_le_two_pow
      omega

theorem ilog2_pow (k : Nat) : tommy_ilog2_u32 (2 ^ k) = k := by
  rw [tommy_ilog2_u32]
  exact ilogAux_pow (2 ^ k) k (by omega)

theorem resize_target_spec (s : Nat) :
    ∃ k, tommy_roundup_pow2_u32 (s + 1) = 2 ^ k ∧ s + 1 ≤ 2 ^ k ∧
      bucketMax (tommy_ilog2_u32 (tommy_roundup_pow2_u32 (s + 1)) + 1) = 2 * 2 ^ k := by
  obtain ⟨k, hru, hle, _⟩ := roundup_spec (s + 1)
  refine ⟨k, hru, hle, ?_⟩
  rw [hru, ilog2_pow, bucketMax, pow_succ]
  ring

/-! ## Well-formedness preservation -/

theorem resize_WF (t : Hashopen) (b : Nat)
    (hfill : t.filled_count = t.bucket.countP isOccS)
    (hcap : t.filled_count < bucketMax b) :
    WF (tommy_hashopen_resize t b) := by
  have hb := placeBasic_resize t b (by rw [← hfill]; omega)
  refine ⟨hb.hlen, ?_, ?_, ?_⟩
  · show t.filled_count = (tommy_hashopen_resize t b).bucket.countP isOccS
    rw [hb.hocc, hfill]
  · show (0 : Nat) = (tommy_hashopen_resize t b).bucket.countP isDelS
    rw [hb.hdel]
  · show t.filled_count + 0 < bucketMax b
    omega

theorem grow_step_WF (t : Hashopen)
    (hlen : t.bucket.length = bucketMax t.bucket_bit)
    (hfill : t.filled_count = t.bucket.countP isOccS)
    (hdel : t.deleted_count = t.bucket.countP isDelS) :
    WF (hashopen_grow_step t) := by
  unfold hashopen_grow_step
  by_cases hc : bucketMax t.bucket_bit / 2 ≤ t.filled_count + t.deleted_count
  · rw [if_pos hc]
    obtain ⟨k, hru, hle, htar⟩ := resize_target_spec (t.filled_count + t.deleted_count)
    refine resize_WF t _ hfill ?_
    rw [htar]
    omega
  · rw [if_neg hc]
    have hd2 : bucketMax t.bucket_bit / 2 ≤ bucketMax t.bucket_bit := Nat.div_le_self _ _
    exact ⟨hlen, hfill, hdel, by omega⟩

theorem shrink_step_WF (t : Hashopen)
    (hlen : t.bucket.length = bucketMax t.bucket_bit)
    (hfill : t.filled_count = t.bucket.countP isOccS)
    (hdel : t.deleted_count = t.bucket.countP isDelS)
    (hload : t.filled_count + t.deleted_count < bucketMax t.bucket_bit) :
    WF (hashopen_shrink_step t) := by
  unfold hashopen_shrink_step
  by_cases hc : t.filled_count ≤ bucketMax t.bucket_bit / 8 ∧ TOMMY_HASHOPEN_BIT < t.bucket_bit
  · rw [if_pos hc]
    obtain ⟨k, hru, hle, htar⟩ := resize_target_spec t.filled_count
    refine resize_WF t _ hfill ?_
    rw [htar]
    omega
  · rw [if_neg hc]
    exact ⟨hlen, hfill, hdel, hload⟩

theorem bucketMax_pos (bit : Nat) : 0 < bucketMax bit := pow_pos (by norm_num) bit

theorem bucket_probe_char (t : Hashopen) (hash i : Nat)
    (hlen : t.bucket.length = bucketMax t.bucket_bit)
    (hp : tommy_hashopen_bucket t hash = some i) :
    ∃ s, t.bucket.get? i = some s ∧ hashStops hash s = true := by
  unfold tommy_hashopen_bucket at hp
  have hst : hash % bucketMax t.bucket_bit < t.bucket.length := by
    rw [hlen]
    exact Nat.mod_lt _ (bucketMax_pos _)
  obtain ⟨m, _, _, hstop, _⟩ := scanFrom_some_char _ _ _ _ _ hst hp
  exact hstop

/-! ## Characterizations of the public operations -/

theorem grow_step_count (t : Hashopen) : (hashopen_grow_step t).count = t.count := by
  unfold hashopen_grow_step
  split <;> rfl

theorem shrink_step_count (t : Hashopen) : (hashopen_shrink_step t).count = t.count := by
  unfold hashopen_shrink_step
  split <;> rfl

theorem insert_core_empty (t : Hashopen) (node : HNode) (data hash i : Nat)
    (hp : tommy_hashopen_bucket t hash = some i)
    (hg : t.bucket.get? i = some Slot.empty) :
    hashopen_insert_core t node data hash =
      some { t with
              bucket := t.bucket.set i (Slot.occ [⟨data, hash⟩] hash),
              filled_count := t.filled_count + 1,
              count := t.count + 1 } := by
  simp only [hashopen_insert_core, hp, hg, tommy_list_insert_first]

theorem insert_core_deleted (t : Hashopen) (node : HNode) (data hash i : Nat)
    (hp : tommy_hashopen_bucket t hash = some i)
    (hg : t.bucket.get? i = some Slot.deleted) :
    hashopen_insert_core t node data hash =
      some { t with
              bucket := t.bucket.set i (Slot.occ [⟨data, hash⟩] hash),
              filled_count := t.filled_count + 1,
              deleted_count := t.deleted_count - 1,
              count := t.count + 1 } := by
  simp only [hashopen_insert_core, hp, hg, tommy_list_insert_first]

theorem insert_core_occ (t : Hashopen) (node : HNode) (data hash i : Nat)
    (chain : List HNode) (h0 : Nat)
    (hp : tommy_hashopen_bucket t hash = some i)
    (hg : t.bucket.get? i = some (Slot.occ chain h0)) :
    hashopen_insert_core t node data hash =
      some { t with
              bucket := t.bucket.set i (Slot.occ (chain ++ [⟨data, hash⟩]) h0),
              count := t.count + 1 } := by
  simp only [hashopen_insert_core, hp, hg, tommy_list_insert_tail_not_empty]

theorem remove_existing_occ (t : Hashopen) (node : HNode) (i : Nat)
    (chain : List HNode) (h0 : Nat)
    (hp : tommy_hashopen_bucket t node.key = some i)
    (hg : t.bucket.get? i = some (Slot.occ chain h0)) :
    tommy_hashopen_remove_existing t node =
      some (hashopen_shrink_step (
        if tommy_list_remove_existing chain node = [] then
          { t with
              bucket := t.bucket.set i Slot.deleted,
              filled_count := t.filled_count - 1,
              deleted_count := t.deleted_count + 1,
              count := t.count - 1 }
        else
          { t with
              bucket := t.bucket.set i (Slot.occ (tommy_list_remove_existing chain node) h0),
              count := t.count - 1 }), node.data) := by
  simp only [tommy_hashopen_remove_existing, hp, hg]

theorem remove_occ_found (t : Hashopen) (cmp : Nat → Bool) (hash i : Nat)
    (chain chain2 : List HNode) (j : HNode) (h0 : Nat)
    (hp : tommy_hashopen_bucket t hash = some i)
    (hg : t.bucket.get? i = some (Slot.occ chain h0))
    (hf : hashopen_chain_remove cmp chain = some (j, chain2)) :
    tommy_hashopen_remove t cmp hash =
      some (hashopen_shrink_step (
        if chain2 = [] then
          { t with
              bucket := t.bucket.set i Slot.deleted,
              filled_count := t.filled_count - 1,
              deleted_count := t.deleted_count + 1,
              count := t.count - 1 }
        else
          { t with
              bucket := t.bucket.set i (Slot.occ chain2 h0),
              count := t.count - 1 }), some j.data) := by
  simp only [tommy_hashopen_remove, hp, hg, hf]

/-! ## Preservation of well-formedness by the public operations -/

theorem insert_WF (t : Hashopen) (node : HNode) (data hash : Nat) (t2 : Hashopen)
    (hw : WF t) (h : tommy_hashopen_insert t node data hash = some t2) : WF t2 := by
  unfold tommy_hashopen_insert at h
  rw [Option.map_eq_some'] at h
  obtain ⟨mid, hcore, hgrow⟩ := h
  subst hgrow
  cases hp : tommy_hashopen_bucket t hash with
  | none => simp [hashopen_insert_core, hp] at hcore
  | some i =>
    obtain ⟨s, hg, hstop⟩ := bucket_probe_char t hash i hw.hlen hp
    cases s with
    | empty =>
      rw [insert_core_empty t node data hash i hp hg] at hcore
      injection hcore with hcore
      subst hcore
      apply grow_step_WF
      · show (t.bucket.set i (Slot.occ [⟨data, hash⟩] hash)).length = bucketMax t.bucket_bit
        rw [List.length_set, hw.hlen]
      · show t.filled_count + 1
          = (t.bucket.set i (Slot.occ [⟨data, hash⟩] hash)).countP isOccS
        rw [countP_set_ft isOccS t.bucket i Slot.empty
          (Slot.occ [⟨data, hash⟩] hash) hg rfl rfl, hw.hfill]
      · show t.deleted_count
          = (t.bucket.set i (Slot.occ [⟨data, hash⟩] hash)).countP isDelS
        rw [countP_set_ff isDelS t.bucket i Slot.empty
          (Slot.occ [⟨data, hash⟩] hash) hg rfl rfl, hw.hdel]
    | deleted =>
      rw [insert_core_deleted t node data hash i hp hg] at hcore
      injection hcore with hcore
      subst hcore
      apply grow_step_WF
      · show (t.bucket.set i (Slot.occ [⟨data, hash⟩] hash)).length = bucketMax t.bucket_bit
        rw [List.length_set, hw.hlen]
      · show t.filled_count + 1
          = (t.bucket.set i (Slot.occ [⟨data, hash⟩] hash)).countP isOccS
        rw [countP_set_ft isOccS t.bucket i Slot.deleted
          (Slot.occ [⟨data, hash⟩] hash) hg rfl rfl, hw.hfill]
      · show t.deleted_count - 1
          = (t.bucket.set i (Slot.occ [⟨data, hash⟩] hash)).countP isDelS
        have htf := countP_set_tf isDelS t.bucket i Slot.deleted
          (Slot.occ [⟨data, hash⟩] hash) hg rfl rfl
        have hd := hw.hdel
        omega
    | occ chain h0 =>
      rw [insert_core_occ t node data hash i chain h0 hp hg] at hcore
      injection hcore with hcore
      subst hcore
      apply grow_step_WF
      · show (t.bucket.set i (Slot.occ (chain ++ [⟨data, hash⟩]) h0)).length
          = bucketMax t.bucket_bit
        rw [List.length_set, hw.hlen]
      · show t.filled_count
          = (t.bucket.set i (Slot.occ (chain ++ [⟨data, hash⟩]) h0)).countP isOccS
        rw [countP_set_tt isOccS t.bucket i (Slot.occ chain h0)
          (Slot.occ (chain ++ [HNode.mk data hash]) h0) hg rfl rfl, hw.hfill]
      · show t.deleted_count
          = (t.bucket.set i (Slot.occ (chain ++ [⟨data, hash⟩]) h0)).countP isDelS
        rw [countP_set_ff isDelS t.bucket i (Slot.occ chain h0)
          (Slot.occ (chain ++ [HNode.mk data hash]) h0) hg rfl rfl, hw.hdel]

theorem removal_mid_WF (t : Hashopen) (i : Nat) (chain chain2 : List HNode) (h0 : Nat)
    (hw : WF t) (hg : t.bucket.get? i = some (Slot.occ chain h0)) :
    WF (hashopen_shrink_step (
      if chain2 = [] then
        { t with
            bucket := t.bucket.set i Slot.deleted,
            filled_count := t.filled_count - 1,
            deleted_count := t.deleted_count + 1,
            count := t.count - 1 }
      else
        { t with
            bucket := t.bucket.set i (Slot.occ chain2 h0),
            count := t.count - 1 })) := by
  have hone : 1 ≤ t.bucket.countP isOccS :=
    one_le_countP_of_get? isOccS t.bucket i (Slot.occ chain h0) hg rfl
  by_cases hch : chain2 = []
  · rw [if_pos hch]
    apply shrink_step_WF
    · show (t.bucket.set i Slot.deleted).length = bucketMax t.bucket_bit
      rw [List.length_set, hw.hlen]
    · show t.filled_count - 1 = (t.bucket.set i Slot.deleted).countP isOccS
      have htf := countP_set_tf isOccS t.bucket i (Slot.occ chain h0) Slot.deleted hg rfl rfl
      have hf := hw.hfill
      omega
    · show t.deleted_count + 1 = (t.bucket.set i Slot.deleted).countP isDelS
      rw [countP_set_ft isDelS t.bucket i (Slot.occ chain h0) Slot.deleted hg rfl rfl, hw.hdel]
    · show t.filled_count - 1 + (t.deleted_count + 1) < bucketMax t.bucket_bit
      have hf := hw.hfill
      have hl := hw.hload
      omega
  · rw [if_neg hch]
    apply shrink_step_WF
    · show (t.bucket.set i (Slot.occ chain2 h0)).length = bucketMax t.bucket_bit
      rw [List.length_set, hw.hlen]
    · show t.filled_count = (t.bucket.set i (Slot.occ chain2 h0)).countP isOccS
      rw [countP_set_tt isOccS t.bucket i (Slot.occ chain h0)
        (Slot.occ chain2 h0) hg rfl rfl, hw.hfill]
    · show t.deleted_count = (t.bucket.set i (Slot.occ chain2 h0)).countP isDelS
      rw [countP_set_ff isDelS t.bucket i (Slot.occ chain h0)
        (Slot.occ chain2 h0) hg rfl rfl, hw.hdel]
    · exact hw.hload

theorem removeEx_WF (t : Hashopen) (node : HNode) (t2 : Hashopen) (d : Nat)
    (hw : WF t) (h : tommy_hashopen_remove_existing t node = some (t2, d)) : WF t2 := by
  cases hp : tommy_hashopen_bucket t node.key with
  | none => simp [tommy_hashopen_remove_existing, hp] at h
  | some i =>
    cases hg : t.bucket.get? i with
    | none =>
      simp only [tommy_hashopen_remove_existing, hp, hg] at h
      exact Option.noConfusion h
    | some s =>
      cases s with
      | empty =>
        simp only [tommy_hashopen_remove_existing, hp, hg] at h
        exact Option.noConfusion h
      | deleted =>
        simp only [tommy_hashopen_remove_existing, hp, hg] at h
        exact Option.noConfusion h
      | occ chain h0 =>
        rw [remove_existing_occ t node i chain h0 hp hg] at h
        injection h with hpair
        injection hpair with h1 h2
        subst h1
        exact removal_mid_WF t i chain (tommy_list_remove_existing chain node) h0 hw hg

theorem remove_WF (t : Hashopen) (cmp : Nat → Bool) (hash : Nat) (t2 : Hashopen)
    (r : Option Nat) (hw : WF t)
    (h : tommy_hashopen_remove t cmp hash = some (t2, r)) : WF t2 := by
  cases hp : tommy_hashopen_bucket t hash with
  | none => simp [tommy_hashopen_remove, hp] at h
  | some i =>
    cases hg : t.bucket.get? i with
    | none =>
      simp only [tommy_hashopen_remove, hp, hg] at h
      exact Option.noConfusion h
    | some s =>
      cases s with
      | empty =>
        simp only [tommy_hashopen_remove, hp, hg] at h
        injection h with hpair
        injection hpair with h1 h2
        subst h1
        exact hw
      | deleted =>
        simp only [tommy_hashopen_remove, hp, hg] at h
        injection h with hpair
        injection hpair with h1 h2
        subst h1
        exact hw
      | occ chain h0 =>
        cases hf : hashopen_chain_remove cmp chain with
        | none =>
          simp only [tommy_hashopen_remove, hp, hg, hf] at h
          injection h with hpair
          injection hpair with h1 h2
          subst h1
          exact hw
        | some jc =>
          obtain ⟨j, chain2⟩ := jc
          rw [remove_occ_found t cmp hash i chain chain2 j h0 hp hg hf] at h
          injection h with hpair
          injection hpair with h1 h2
          subst h1
          exact removal_mid_WF t i chain chain2 h0 hw hg

theorem WF_init : WF tommy_hashopen_init := by
  refine ⟨?_, ?_, ?_, ?_⟩
  · simp [tommy_hashopen_init, tommy_hashopen_alloc]
  · simp [tommy_hashopen_init, tommy_hashopen_alloc, List.countP_replicate, isOccS]
  · simp [tommy_hashopen_init, tommy_hashopen_alloc, List.countP_replicate, isDelS]
  · show (0 : Nat) + 0 < bucketMax TOMMY_HASHOPEN_BIT
    simp [bucketMax, TOMMY_HASHOPEN_BIT]

theorem runOp_WF (t : Hashopen) (op : Op) (t2 : Hashopen)
    (hw : WF t) (h : runOp t op = some t2) : WF t2 := by
  cases op with
  | ins node data hash => exact insert_WF t node data hash t2 hw h
  | rmx node =>
    simp only [runOp, Option.map_eq_some'] at h
    obtain ⟨⟨t3, d3⟩, hre, hfst⟩ := h
    have hfst2 : t3 = t2 := hfst
    subst hfst2
    exact removeEx_WF t node t3 d3 hw hre
  | rmp cmp hash =>
    simp only [runOp, Option.map_eq_some'] at h
    obtain ⟨⟨t3, r3⟩, hre, hfst⟩ := h
    have hfst2 : t3 = t2 := hfst
    subst hfst2
    exact remove_WF t cmp hash t3 r3 hw hre

theorem runOps_WF : ∀ (ops : List Op) (t t2 : Hashopen),
    WF t → runOps t ops = some t2 → WF t2 := by
  intro ops
  induction ops with
  | nil =>
    intro t t2 hw h
    simp only [runOps] at h
    injection h with h
    subst h
    exact hw
  | cons op ops2 ih =>
    intro t t2 hw h
    cases hop : runOp t op with
    | none =>
      simp only [runOps, hop] at h
      exact Option.noConfusion h
    | some t3 =>
      simp only [runOps, hop] at h
      exact ih t3 t2 (runOp_WF t op t3 hw hop) h

/-! ## The reinsertion loop of resize: searchability invariant -/

theorem scanFrom_set_preserve (stop : Slot → Bool) (nb : List Slot) (k st k0 : Nat) (v : Slot)
    (hst : st < nb.length)
    (hscan : scanFrom stop nb nb.length st = some k0)
    (hgk : nb.get? k = some Slot.empty)
    (hes : stop Slot.empty = true)
    (hk0 : k0 ≠ k) :
    scanFrom stop (nb.set k v) (nb.set k v).length st = some k0 := by
  obtain ⟨m0, hm0, hk0eq, ⟨s0, hgs0, hst0⟩, hpre0⟩ :=
    scanFrom_some_char stop nb nb.length st k0 hst hscan
  have hlen2 : (nb.set k v).length = nb.length := List.length_set nb k v
  have hres := scanFrom_eq_some_of_char stop (nb.set k v) (nb.set k v).length st m0
      (by rw [hlen2]; exact hst) (by rw [hlen2]; exact hm0) ?_ ?_
  · rw [hres, hlen2, ← hk0eq]
  · rw [hlen2, ← hk0eq]
    refine ⟨s0, ?_, hst0⟩
    rw [List.get?_set_ne v nb (fun he => hk0 he.symm)]
    exact hgs0
  · intro j hj
    rw [hlen2]
    obtain ⟨sj, hgj, hsj⟩ := hpre0 j hj
    have hne : k ≠ (st + j) % nb.length := by
      intro he
      rw [← he, hgk] at hgj
      injection hgj with hgj
      subst hgj
      rw [hes] at hsj
      exact Bool.noConfusion hsj
    refine ⟨sj, ?_, hsj⟩
    rw [List.get?_set_ne v nb hne]
    exact hgj

theorem scanFrom_set_new (nb processed : List Slot) (k m : Nat)
    (chain2 : List HNode) (h2 : Nat)
    (hdel0 : nb.countP isDelS = 0)
    (hprov : ∀ k2 s2, nb.get? k2 = some s2 →
      s2 = Slot.empty ∨ (isOccS s2 = true ∧ s2 ∈ processed))
    (hfresh : ∀ hx, hx ∈ occHashes processed → hx ≠ h2)
    (hstart : cacheLineStart nb.length h2 < nb.length)
    (hm : m < nb.length)
    (hkeq : k = (cacheLineStart nb.length h2 + m) % nb.length)
    (hgk : nb.get? k = some Slot.empty)
    (hpre : ∀ j, j < m → ∃ sj,
      nb.get? ((cacheLineStart nb.length h2 + j) % nb.length) = some sj ∧ isEmptyS sj = false) :
    scanFrom (hashStops h2) (nb.set k (Slot.occ chain2 h2))
      (nb.set k (Slot.occ chain2 h2)).length
      (cacheLineStart (nb.set k (Slot.occ chain2 h2)).length h2) = some k := by
  have hlen2 : (nb.set k (Slot.occ chain2 h2)).length = nb.length := List.length_set nb k _
  have hklt : k < nb.length := (List.get?_eq_some.mp hgk).1
  have hres := scanFrom_eq_some_of_char (hashStops h2) (nb.set k (Slot.occ chain2 h2))
      (nb.set k (Slot.occ chain2 h2)).length (cacheLineStart nb.length h2) m
      (by rw [hlen2]; exact hstart) (by rw [hlen2]; exact hm) ?_ ?_
  · rw [hlen2, ← hkeq] at hres
    rw [hlen2]
    exact hres
  · rw [hlen2, ← hkeq]
    refine ⟨Slot.occ chain2 h2, List.get?_set_eq_of_lt _ hklt, ?_⟩
    simp [hashStops]
  · intro j hj
    rw [hlen2]
    obtain ⟨sj, hgj, hsj⟩ := hpre j hj
    have hne : k ≠ (cacheLineStart nb.length h2 + j) % nb.length := by
      intro he
      rw [← he, hgk] at hgj
      injection hgj with hgj
      subst hgj
      simp [isEmptyS] at hsj
    refine ⟨sj, by rw [List.get?_set_ne _ nb hne]; exact hgj, ?_⟩
    cases sj with
    | empty => simp [isEmptyS] at hsj
    | deleted =>
      have hds := no_slot_of_countP_zero isDelS nb hdel0 _ _ hgj
      simp [isDelS] at hds
    | occ c3 h3 =>
      rcases hprov _ _ hgj with he | ⟨_, hmem⟩
      · exact Slot.noConfusion he
      · have hh3 := mem_occHashes processed c3 h3 hmem
        have hne3 := hfresh h3 hh3
        simpa [hashStops] using hne3

/-- Invariant of the resize reinsertion loop, searchability part: on top of
the counting invariant, every slot of the new array is empty or one of the
already migrated occupied slots, and every migrated slot whose recorded hash
appears on at most one occupied slot of the whole old array `all` is found —
chain and recorded hash intact — by the probe scan started at its hash's
start-of-cache-line index. -/
structure PlaceInv (L : Nat) (all processed nb : List Slot) : Prop where
  hlen : nb.length = L
  hdel : nb.countP isDelS = 0
  hocc : nb.countP isOccS = processed.countP isOccS
  hprov : ∀ k s, nb.get? k = some s → s = Slot.empty ∨ (isOccS s = true ∧ s ∈ processed)
  hsearch : ∀ chain h, Slot.occ chain h ∈ processed → (occHashes all).count h ≤ 1 →
    ∃ k, scanFrom (hashStops h) nb nb.length (cacheLineStart nb.length h) = some k ∧
      nb.get? k = some (Slot.occ chain h)

theorem placeInv_step (L : Nat) (all processed nb : List Slot) (s : Slot)
    (inv : PlaceInv L all processed nb)
    (hcap : (processed ++ [s]).countP isOccS ≤ L)
    (hfresh2 : ∀ chain2 h2, s = Slot.occ chain2 h2 → (occHashes all).count h2 ≤ 1 →
      ∀ hx, hx ∈ occHashes processed → hx ≠ h2) :
    PlaceInv L all (processed ++ [s]) (placeSlot nb s) := by
  have hbasic : PlaceBasic L processed nb := ⟨inv.hlen, inv.hdel, inv.hocc⟩
  have hstep := placeBasic_step L processed nb s hbasic hcap
  cases s with
  | empty =>
    refine ⟨hstep.hlen, hstep.hdel, hstep.hocc, ?_, ?_⟩
    · intro k2 s2 hg2
      rcases inv.hprov k2 s2 hg2 with he | ⟨ho, hm⟩
      · exact Or.inl he
      · exact Or.inr ⟨ho, List.mem_append_left _ hm⟩
    · intro chain h hmem hcnt
      rcases List.mem_append.mp hmem with hmem | hmem
      · exact inv.hsearch chain h hmem hcnt
      · exact Slot.noConfusion (List.mem_singleton.mp hmem)
  | deleted =>
    refine ⟨hstep.hlen, hstep.hdel, hstep.hocc, ?_, ?_⟩
    · intro k2 s2 hg2
      rcases inv.hprov k2 s2 hg2 with he | ⟨ho, hm⟩
      · exact Or.inl he
      · exact Or.inr ⟨ho, List.mem_append_left _ hm⟩
    · intro chain h hmem hcnt
      rcases List.mem_append.mp hmem with hmem | hmem
      · exact inv.hsearch chain h hmem hcnt
      · exact Slot.noConfusion (List.mem_singleton.mp hmem)
  | occ chain2 h2 =>
    have hused : nb.countP usedS = processed.countP isOccS := by
      rw [countP_used_eq, inv.hdel, inv.hocc]
      omega
    have hocc1 : (processed ++ [Slot.occ chain2 h2]).countP isOccS
        = processed.countP isOccS + 1 := by
      rw [List.countP_append, countP_singleton]
      simp [isOccS]
    have hlt : nb.countP usedS < nb.length := by
      rw [hused, inv.hlen]
      omega
    obtain ⟨i0, hi0, hg0⟩ := exists_empty_slot nb hlt
    have hL : 0 < nb.length := by omega
    have hstart : cacheLineStart nb.length h2 < nb.length := cacheLineStart_lt _ _ hL
    obtain ⟨k, hk⟩ := scanFrom_isSome_of_index isEmptyS nb _ hstart
      ⟨i0, Slot.empty, hi0, hg0, rfl⟩
    have hps : placeSlot nb (Slot.occ chain2 h2) = nb.set k (Slot.occ chain2 h2) := by
      simp only [placeSlot, hk]
    obtain ⟨m, hm, hkeq, ⟨sk, hgk, hsk⟩, hpre⟩ :=
      scanFrom_some_char isEmptyS nb nb.length _ k hstart hk
    have hske : sk = Slot.empty := by
      cases sk with
      | empty => rfl
      | deleted => simp [isEmptyS] at hsk
      | occ c hh => simp [isEmptyS] at hsk
    subst hske
    have hklt : k < nb.length := (List.get?_eq_some.mp hgk).1
    have hget_ne : ∀ k2, k2 ≠ k →
        (nb.set k (Slot.occ chain2 h2)).get? k2 = nb.get? k2 := by
      intro k2 hne
      exact List.get?_set_ne _ nb (fun he => hne he.symm)
    have hget_k : (nb.set k (Slot.occ chain2 h2)).get? k = some (Slot.occ chain2 h2) :=
      List.get?_set_eq_of_lt _ hklt
    rw [hps]
    refine ⟨?_, ?_, ?_, ?_, ?_⟩
    · rw [← hps]
      exact hstep.hlen
    · rw [← hps]
      exact hstep.hdel
    · rw [← hps]
      exact hstep.hocc
    · intro k2 s2 hg2
      by_cases hk2 : k2 = k
      · subst hk2
        rw [hget_k] at hg2
        injection hg2 with hg2
        subst hg2
        exact Or.inr ⟨rfl, List.mem_append_right _ (by simp)⟩
      · rw [hget_ne k2 hk2] at hg2
        rcases inv.hprov k2 s2 hg2 with he | ⟨ho, hm2⟩
        · exact Or.inl he
        · exact Or.inr ⟨ho, List.mem_append_left _ hm2⟩
    · intro chain h hmem hcnt
      rcases List.mem_append.mp hmem with hmem | hmem
      · -- a previously migrated slot: its probe scan is unchanged
        obtain ⟨k0, hscan0, hg0⟩ := inv.hsearch chain h hmem hcnt
        have hne0 : k0 ≠ k := by
          intro he
          rw [he, hgk] at hg0
          injection hg0 with hg0
          exact Slot.noConfusion hg0
        refine ⟨k0, ?_, by rw [hget_ne k0 hne0]; exact hg0⟩
        have hlen2 : (nb.set k (Slot.occ chain2 h2)).length = nb.length :=
          List.length_set nb k _
        have hsp := scanFrom_set_preserve (hashStops h) nb k
          (cacheLineStart nb.length h) k0 (Slot.occ chain2 h2)
          (cacheLineStart_lt _ _ hL) hscan0 hgk rfl hne0
        rw [hlen2]
        rw [hlen2] at hsp
        exact hsp
      · -- the freshly migrated slot
        have hand := List.mem_singleton.mp hmem
        injection hand with hch hh
        subst hch
        subst hh
        have hfresh := hfresh2 chain h rfl hcnt
        refine ⟨k, ?_, hget_k⟩
        exact scanFrom_set_new nb processed k m chain h inv.hdel inv.hprov hfresh
          hstart hm hkeq hgk hpre

theorem placeInv_fold (L : Nat) (all : List Slot) :
    ∀ (rest processed nb : List Slot),
      PlaceInv L all processed nb →
      (processed ++ rest).countP isOccS ≤ L →
      all = processed ++ rest →
      PlaceInv L all (processed ++ rest) (rest.foldl placeSlot nb) := by
  intro rest
  induction rest with
  | nil =>
    intro processed nb inv hcap hall
    simpa using inv
  | cons s rest2 ih =>
    intro processed nb inv hcap hall
    have hcap1 : (processed ++ [s]).countP isOccS ≤ L := by
      rw [List.countP_append] at hcap ⊢
      rw [List.countP_cons] at hcap
      rw [countP_singleton]
      omega
    have hfresh2 : ∀ chain2 h2, s = Slot.occ chain2 h2 →
        (occHashes all).count h2 ≤ 1 → ∀ hx, hx ∈ occHashes processed → hx ≠ h2 := by
      intro chain2 h2 hs hcnt hx hhx he
      subst hs
      subst he
      rw [hall] at hcnt
      rw [show processed ++ Slot.occ chain2 hx :: rest2
            = (processed ++ [Slot.occ chain2 hx]) ++ rest2 by simp] at hcnt
      rw [occHashes_append, occHashes_append, List.count_append, List.count_append] at hcnt
      have hone : 0 < (occHashes processed).count hx := List.count_pos_iff.mpr hhx
      have hself : (occHashes [Slot.occ chain2 hx]).count hx = 1 := by
        show ([hx] : List Nat).count hx = 1
        simp
      omega
    have hstep := placeInv_step L all processed nb s inv hcap1 hfresh2
    have hcap2 : ((processed ++ [s]) ++ rest2).countP isOccS ≤ L := by
      rw [List.append_assoc, List.singleton_append]
      exact hcap
    have hall2 : all = (processed ++ [s]) ++ rest2 := by
      rw [List.append_assoc, List.singleton_append]
      exact hall
    have hres := ih (processed ++ [s]) (placeSlot nb s) hstep hcap2 hall2
    rw [List.append_assoc, List.singleton_append] at hres
    exact hres

theorem placeInv_resize (t : Hashopen) (b : Nat)
    (hcap : t.bucket.countP isOccS ≤ bucketMax b) :
    PlaceInv (bucketMax b) t.bucket t.bucket (tommy_hashopen_resize t b).bucket := by
  have base : PlaceInv (bucketMax b) t.bucket [] (tommy_hashopen_alloc b) := by
    refine ⟨?_, ?_, ?_, ?_, ?_⟩
    · simp [tommy_hashopen_alloc]
    · simp [tommy_hashopen_alloc, List.countP_replicate, isDelS]
    · simp [tommy_hashopen_alloc, List.countP_replicate, isOccS]
    · intro k s hg
      exact Or.inl (List.eq_of_mem_replicate (List.get?_mem hg))
    · intro chain h hmem
      exact absurd hmem (List.not_mem_nil _)
  have hres := placeInv_fold (bucketMax b) t.bucket t.bucket [] (tommy_hashopen_alloc b) base
    (by simpa using hcap) (by simp)
  simpa [tommy_hashopen_resize] using hres

/-- Invariant of the resize reinsertion loop, placement part (needing no
assumption on the recorded hashes): every slot of the new array is empty or
one of the already migrated occupied slots, and every migrated slot sits on
the forward wraparound scan path from its hash's start-of-cache-line index,
with every earlier position on that path non-empty — i.e. it was placed into
the first slot that was empty when it was migrated. -/
structure PlaceMid (L : Nat) (processed nb : List Slot) : Prop where
  hlen : nb.length = L
  hdel : nb.countP isDelS = 0
  hocc : nb.countP isOccS = processed.countP isOccS
  hprov : ∀ k s, nb.get? k = some s → s = Slot.empty ∨ (isOccS s = true ∧ s ∈ processed)
  hpath : ∀ k chain h, nb.get? k = some (Slot.occ chain h) →
    ∃ m, m < nb.length ∧ k = (cacheLineStart nb.length h + m) % nb.length ∧
      ∀ j, j < m → ∃ s2,
        nb.get? ((cacheLineStart nb.length h + j) % nb.length) = some s2 ∧
        isEmptyS s2 = false

theorem placeMid_step (L : Nat) (processed nb : List Slot) (s : Slot)
    (inv : PlaceMid L processed nb)
    (hcap : (processed ++ [s]).countP isOccS ≤ L) :
    PlaceMid L (processed ++ [s]) (placeSlot nb s) := by
  have hbasic : PlaceBasic L processed nb := ⟨inv.hlen, inv.hdel, inv.hocc⟩
  have hstep := placeBasic_step L processed nb s hbasic hcap
  cases s with
  | empty =>
    refine ⟨hstep.hlen, hstep.hdel, hstep.hocc, ?_, inv.hpath⟩
    intro k2 s2 hg2
    rcases inv.hprov k2 s2 hg2 with he | ⟨ho, hm⟩
    · exact Or.inl he
    · exact Or.inr ⟨ho, List.mem_append_left _ hm⟩
  | deleted =>
    refine ⟨hstep.hlen, hstep.hdel, hstep.hocc, ?_, inv.hpath⟩
    intro k2 s2 hg2
    rcases inv.hprov k2 s2 hg2 with he | ⟨ho, hm⟩
    · exact Or.inl he
    · exact Or.inr ⟨ho, List.mem_append_left _ hm⟩
  | occ chain2 h2 =>
    have hused : nb.countP usedS = processed.countP isOccS := by
      rw [countP_used_eq, inv.hdel, inv.hocc]
      omega
    have hocc1 : (processed ++ [Slot.occ chain2 h2]).countP isOccS
        = processed.countP isOccS + 1 := by
      rw [List.countP_append, countP_singleton]
      simp [isOccS]
    have hlt : nb.countP usedS < nb.length := by
      rw [hused, inv.hlen]
      omega
    obtain ⟨i0, hi0, hg0⟩ := exists_empty_slot nb hlt
    have hL : 0 < nb.length := by omega
    have hstart : cacheLineStart nb.length h2 < nb.length := cacheLineStart_lt _ _ hL
    obtain ⟨k, hk⟩ := scanFrom_isSome_of_index isEmptyS nb _ hstart
      ⟨i0, Slot.empty, hi0, hg0, rfl⟩
    have hps : placeSlot nb (Slot.occ chain2 h2) = nb.set k (Slot.occ chain2 h2) := by
      simp only [placeSlot, hk]
    obtain ⟨m, hm, hkeq, ⟨sk, hgk, hsk⟩, hpre⟩ :=
      scanFrom_some_char isEmptyS nb nb.length _ k hstart hk
    have hske : sk = Slot.empty := by
      cases sk with
      | empty => rfl
      | deleted => simp [isEmptyS] at hsk
      | occ c hh => simp [isEmptyS] at hsk
    subst hske
    have hklt : k < nb.length := (List.get?_eq_some.mp hgk).1
    have hget_ne : ∀ k2, k2 ≠ k →
        (nb.set k (Slot.occ chain2 h2)).get? k2 = nb.get? k2 := by
      intro k2 hne
      exact List.get?_set_ne _ nb (fun he => hne he.symm)
    have hget_k : (nb.set k (Slot.occ chain2 h2)).get? k = some (Slot.occ chain2 h2) :=
      List.get?_set_eq_of_lt _ hklt
    have hlen2 : (nb.set k (Slot.occ chain2 h2)).length = nb.length :=
      List.length_set nb k _
    rw [hps]
    refine ⟨?_, ?_, ?_, ?_, ?_⟩
    · rw [← hps]
      exact hstep.hlen
    · rw [← hps]
      exact hstep.hdel
    · rw [← hps]
      exact hstep.hocc
    · intro k2 s2 hg2
      by_cases hk2 : k2 = k
      · subst hk2
        rw [hget_k] at hg2
        injection hg2 with hg2
        subst hg2
        exact Or.inr ⟨rfl, List.mem_append_right _ (by simp)⟩
      · rw [hget_ne k2 hk2] at hg2
        rcases inv.hprov k2 s2 hg2 with he | ⟨ho, hm2⟩
        · exact Or.inl he
        · exact Or.inr ⟨ho, List.mem_append_left _ hm2⟩
    · intro k2 chain h hg2
      rw [hlen2]
      by_cases hk2 : k2 = k
      · rw [hk2] at hg2 ⊢
        rw [hget_k] at hg2
        injection hg2 with hg2
        injection hg2 with hch hh
        rw [← hh]
        refine ⟨m, hm, hkeq, ?_⟩
        intro j hj
        obtain ⟨sj, hgj, hsj⟩ := hpre j hj
        have hne : k ≠ (cacheLineStart nb.length h2 + j) % nb.length := by
          intro he
          rw [← he, hgk] at hgj
          injection hgj with hgj
          subst hgj
          simp [isEmptyS] at hsj
        refine ⟨sj, ?_, hsj⟩
        rw [hget_ne _ (fun he => hne he.symm)]
        exact hgj
      · rw [hget_ne k2 hk2] at hg2
        obtain ⟨m0, hm0, hke0, hpre0⟩ := inv.hpath k2 chain h hg2
        refine ⟨m0, hm0, hke0, ?_⟩
        intro j hj
        obtain ⟨sj, hgj, hsj⟩ := hpre0 j hj
        have hne : k ≠ (cacheLineStart nb.length h + j) % nb.length := by
          intro he
          rw [← he, hgk] at hgj
          injection hgj with hgj
          subst hgj
          simp [isEmptyS] at hsj
        refine ⟨sj, ?_, hsj⟩
        rw [hget_ne _ (fun he => hne he.symm)]
        exact hgj

theorem placeMid_fold (L : Nat) :
    ∀ (rest processed nb : List Slot),
      PlaceMid L processed nb →
      (processed ++ rest).countP isOccS ≤ L →
      PlaceMid L (processed ++ rest) (rest.foldl placeSlot nb) := by
  intro rest
  induction rest with
  | nil =>
    intro processed nb inv hcap
    simpa using inv
  | cons s rest2 ih =>
    intro processed nb inv hcap
    have hcap1 : (processed ++ [s]).countP isOccS ≤ L := by
      rw [List.countP_append] at hcap ⊢
      rw [List.countP_cons] at hcap
      rw [countP_singleton]
      omega
    have hstep := placeMid_step L processed nb s inv hcap1
    have hcap2 : ((processed ++ [s]) ++ rest2).countP isOccS ≤ L := by
      rw [List.append_assoc, List.singleton_append]
      exact hcap
    have hres := ih (processed ++ [s]) (placeSlot nb s) hstep hcap2
    rw [List.append_assoc, List.singleton_append] at hres
    exact hres

theorem placeMid_resize (t : Hashopen) (b : Nat)
    (hcap : t.bucket.countP isOccS ≤ bucketMax b) :
    PlaceMid (bucketMax b) t.bucket (tommy_hashopen_resize t b).bucket := by
  have base : PlaceMid (bucketMax b) [] (tommy_hashopen_alloc b) := by
    refine ⟨?_, ?_, ?_, ?_, ?_⟩
    · simp [tommy_hashopen_alloc]
    · simp [tommy_hashopen_alloc, List.countP_replicate, isDelS]
    · simp [tommy_hashopen_alloc, List.countP_replicate, isOccS]
    · intro k s hg
      exact Or.inl (List.eq_of_mem_replicate (List.get?_mem hg))
    · intro k chain h hg
      exact Slot.noConfusion (List.eq_of_mem_replicate (List.get?_mem hg))
  have hres := placeMid_fold (bucketMax b) t.bucket [] (tommy_hashopen_alloc b) base
    (by simpa using hcap)
  simpa [tommy_hashopen_resize] using hres
/-! ## Reachability across a resize -/

theorem hashReachable_mem (t : Hashopen) (nd : HNode)
    (hlen : t.bucket.length = bucketMax t.bucket_bit)
    (h : hashReachable t nd = true) :
    ∃ chain, Slot.occ chain nd.key ∈ t.bucket ∧ nd ∈ chain := by
  cases hp : tommy_hashopen_bucket t nd.key with
  | none =>
    simp only [hashReachable, hp] at h
    exact Bool.noConfusion h
  | some i =>
    cases hg : t.bucket.get? i with
    | none =>
      simp only [hashReachable, hp, hg] at h
      exact Bool.noConfusion h
    | some s =>
      cases s with
      | empty =>
        simp only [hashReachable, hp, hg] at h
        exact Bool.noConfusion h
      | deleted =>
        simp only [hashReachable, hp, hg] at h
        exact Bool.noConfusion h
      | occ chain h0 =>
        simp only [hashReachable, hp, hg] at h
        have hin : nd ∈ chain := by simpa using h
        obtain ⟨s2, hg2, hstop⟩ := bucket_probe_char t nd.key i hlen hp
        rw [hg] at hg2
        injection hg2 with hg2
        subst hg2
        have hk : h0 = nd.key := by simpa [hashStops] using hstop
        subst hk
        exact ⟨chain, List.get?_mem hg, hin⟩

theorem resize_reachable (t : Hashopen) (b : Nat) (nd : HNode)
    (hlen : t.bucket.length = bucketMax t.bucket_bit)
    (hcap : t.bucket.countP isOccS ≤ bucketMax b)
    (huniq : (occHashes t.bucket).count nd.key ≤ 1)
    (hreach : hashReachable t nd = true) :
    hashReachableCache (tommy_hashopen_resize t b) nd = true := by
  obtain ⟨chain, hm, hin⟩ := hashReachable_mem t nd hlen hreach
  have hinv := placeInv_resize t b hcap
  obtain ⟨k, hscan, hg⟩ := hinv.hsearch chain nd.key hm huniq
  have hscan2 : searchCache (tommy_hashopen_resize t b) nd.key = some k := hscan
  simp only [hashReachableCache, hscan2, hg]
  simpa using hin

/-! ## Removal that finds nothing -/

theorem remove_none_unchanged (t : Hashopen) (cmp : Nat → Bool) (hash : Nat) (t2 : Hashopen)
    (h : tommy_hashopen_remove t cmp hash = some (t2, none)) : t2 = t := by
  cases hp : tommy_hashopen_bucket t hash with
  | none =>
    simp only [tommy_hashopen_remove, hp] at h
    exact Option.noConfusion h
  | some i =>
    cases hg : t.bucket.get? i with
    | none =>
      simp only [tommy_hashopen_remove, hp, hg] at h
      exact Option.noConfusion h
    | some s =>
      cases s with
      | empty =>
        simp only [tommy_hashopen_remove, hp, hg] at h
        injection h with hpair
        injection hpair with h1 h2
        exact h1.symm
      | deleted =>
        simp only [tommy_hashopen_remove, hp, hg] at h
        injection h with hpair
        injection hpair with h1 h2
        exact h1.symm
      | occ chain h0 =>
        cases hf : hashopen_chain_remove cmp chain with
        | none =>
          simp only [tommy_hashopen_remove, hp, hg, hf] at h
          injection h with hpair
          injection hpair with h1 h2
          exact h1.symm
        | some jc =>
          obtain ⟨j, chain2⟩ := jc
          rw [remove_occ_found t cmp hash i chain chain2 j h0 hp hg hf] at h
          injection h with hpair
          injection hpair with h1 h2
          exact Option.noConfusion h2

/-! ## Small helpers for the removal claims -/

theorem get?_set_ne_some_empty (l : List Slot) (i : Nat) (v : Slot) (hv : v ≠ Slot.empty) :
    (l.set i v).get? i ≠ some Slot.empty := by
  intro hc
  by_cases hi : i < l.length
  · rw [List.get?_set_eq_of_lt v hi] at hc
    injection hc with hc
    exact hv hc
  · have hlen : (l.set i v).length ≤ i := by
      rw [List.length_set]
      omega
    rw [List.get?_eq_none.mpr hlen] at hc
    exact Option.noConfusion hc

theorem insert_core_fields (t : Hashopen) (node : HNode) (data hash : Nat) (mid : Hashopen)
    (h : hashopen_insert_core t node data hash = some mid) :
    mid.count = t.count + 1 ∧ mid.bucket_bit = t.bucket_bit := by
  cases hp : tommy_hashopen_bucket t hash with
  | none =>
    simp only [hashopen_insert_core, hp] at h
    exact Option.noConfusion h
  | some i =>
    cases hg : t.bucket.get? i with
    | none =>
      simp only [hashopen_insert_core, hp, hg] at h
      exact Option.noConfusion h
    | some s =>
      cases s with
      | empty =>
        rw [insert_core_empty t node data hash i hp hg] at h
        injection h with h
        subst h
        exact ⟨rfl, rfl⟩
      | deleted =>
        rw [insert_core_deleted t node data hash i hp hg] at h
        injection h with h
        subst h
        exact ⟨rfl, rfl⟩
      | occ chain h0 =>
        rw [insert_core_occ t node data hash i chain h0 hp hg] at h
        injection h with h
        subst h
        exact ⟨rfl, rfl⟩

/-! ## Claim theorems -/

/-- The failing operation sequence for claim C1: seven inserts with distinct
hashes, six predicate removals (accumulating tombstones at minimum capacity,
where the shrink check is disabled), one more insert that drives
`filled_count + deleted_count` to `bucket_max / 2` and grows the table to 32
slots with `filled_count = 2`, and one final removal whose shrink check then
fires with `filled_count = 1`. -/
def opsC1 : List Op :=
  [Op.ins ⟨0, 0⟩ 0 0, Op.ins ⟨0, 0⟩ 1 1, Op.ins ⟨0, 0⟩ 2 2, Op.ins ⟨0, 0⟩ 3 3,
   Op.ins ⟨0, 0⟩ 4 4, Op.ins ⟨0, 0⟩ 5 5, Op.ins ⟨0, 0⟩ 6 6,
   Op.rmp (fun d => d == 1) 1, Op.rmp (fun d => d == 2) 2, Op.rmp (fun d => d == 3) 3,
   Op.rmp (fun d => d == 4) 4, Op.rmp (fun d => d == 5) 5, Op.rmp (fun d => d == 6) 6,
   Op.ins ⟨0, 0⟩ 8 8,
   Op.rmp (fun d => d == 8) 8]

/-- C1: the claim states that `bucket_max` never drops below the fixed minimum
`2^TOMMY_HASHOPEN_BIT = 16`.  The code violates it: running `opsC1` from
`tommy_hashopen_init`, the final removal triggers `hashopen_shrink_step` with
`filled_count = 1` at `bucket_bit = 5`, and the unclamped resize target
`ilog2(roundup_pow2(1 + 1)) + 1 = 2` shrinks the table to `bucket_max = 4`,
below the minimum 16 that the shrink guard `bucket_bit > TOMMY_HASHOPEN_BIT`
was evidently meant to protect. -/
theorem claim_C1_shrink_below_min :
    (runOps tommy_hashopen_init opsC1).map (fun t => bucketMax t.bucket_bit) = some 4 ∧
    4 < bucketMax TOMMY_HASHOPEN_BIT := by
  exact ⟨by decide, by decide⟩

/-- C2: after `tommy_hashopen_init` and after every completed sequence of
public operations (insert, remove, remove_existing),
`filled_count + deleted_count < bucket_max` holds strictly. -/
theorem claim_C2_load_strict (ops : List Op) (t : Hashopen)
    (h : runOps tommy_hashopen_init ops = some t) :
    t.filled_count + t.deleted_count < bucketMax t.bucket_bit :=
  (runOps_WF ops tommy_hashopen_init t WF_init h).hload

/-- The table reached from `tommy_hashopen_init` by inserting payload 7 under
hash 3 and then removing it by predicate: slot 3 is tombstoned. -/
def tC2w : Hashopen :=
  { bucket_bit := 4
    bucket := (tommy_hashopen_alloc 4).set 3 Slot.deleted
    count := 0
    filled_count := 0
    deleted_count := 1 }

theorem claim_C2_witness :
    runOps tommy_hashopen_init [Op.ins ⟨0, 0⟩ 7 3, Op.rmp (fun d => d == 7) 3] = some tC2w ∧
    tC2w.filled_count + tC2w.deleted_count < bucketMax tC2w.bucket_bit :=
  ⟨by decide, claim_C2_load_strict [Op.ins ⟨0, 0⟩ 7 3, Op.rmp (fun d => d == 7) 3] tC2w (by decide)⟩

/-- The table reached from `tommy_hashopen_init` by inserting payload 3 under
hash 3: one occupied slot at index 3. -/
def tC3 : Hashopen :=
  { bucket_bit := 4
    bucket := (tommy_hashopen_alloc 4).set 3 (Slot.occ [⟨3, 3⟩] 3)
    count := 1
    filled_count := 1
    deleted_count := 0 }

/-- A reachable table in which hash 30 is recorded on two occupied slots:
inserting hashes 14, 15 and 30 sends hash 30 to slot 0 (past the occupied
slots 14 and 15); removing the hash-14 element tombstones slot 14, and a
second insert under hash 30 stops at that tombstone and records hash 30
there as well. -/
def tC3dup : Hashopen :=
  { bucket_bit := 4
    bucket := (((tommy_hashopen_alloc 4).set 0 (Slot.occ [⟨3, 30⟩] 30)).set 14
        (Slot.occ [⟨5, 30⟩] 30)).set 15 (Slot.occ [⟨2, 15⟩] 15)
    count := 3
    filled_count := 3
    deleted_count := 0 }

/-- C3 fails as stated, in two ways.  First, in the reachable table `tC3` the
element with hash 3 is reachable by the probe, but after
`tommy_hashopen_resize` to 32 slots the rehash places it at slot 0
(`3 & bucket_mask_cache = 0`) while the probe by hash 3 starts at slot 3
(`3 & bucket_mask`), finds it Empty and stops — so reachability by the spec's
probe start is lost.  Second, even for the search started at
`hash & bucket_mask_cache`, reachability is lost when the element's hash is
recorded on two occupied slots: in the reachable table `tC3dup` both slot 0
and slot 14 record hash 30, and after the resize the scan from 28
(`30 & bucket_mask_cache`) stops at the first hash-30 slot, which holds the
other chain. -/
theorem claim_C3_counterexample :
    (runOps tommy_hashopen_init [Op.ins ⟨0, 0⟩ 3 3] = some tC3 ∧
     hashReachable tC3 ⟨3, 3⟩ = true ∧
     hashReachable (tommy_hashopen_resize tC3 5) ⟨3, 3⟩ = false) ∧
    (runOps tommy_hashopen_init
        [Op.ins ⟨0, 0⟩ 1 14, Op.ins ⟨0, 0⟩ 2 15, Op.ins ⟨0, 0⟩ 3 30,
         Op.rmp (fun d => d == 1) 14, Op.ins ⟨0, 0⟩ 5 30] = some tC3dup ∧
     (occHashes tC3dup.bucket).count 30 = 2 ∧
     hashReachable tC3dup ⟨5, 30⟩ = true ∧
     hashReachableCache (tommy_hashopen_resize tC3dup 5) ⟨5, 30⟩ = false) := by
  exact ⟨⟨by decide, by decide, by decide⟩, by decide, by decide, by decide, by decide⟩

/-- C3 (amended): after any resize, `bucket_max` is a power of two, and every
element that was reachable via the probe by its stored hash, and whose stored
hash is recorded on at most one occupied slot, is still found by the same
hash when the search scan starts at the start-of-cache-line index
`hash & bucket_mask_cache` — the index the rehash scans from — rather than at
the spec's probe start `hash & bucket_mask`.  Both restrictions are forced by
the counterexample: with the spec's probe start, or for an element whose hash
is recorded on two occupied slots, reachability can be lost. -/
theorem claim_C3_resize_reachable (t : Hashopen) (b : Nat) (nd : HNode)
    (hlen : t.bucket.length = bucketMax t.bucket_bit)
    (hcap : t.bucket.countP isOccS ≤ bucketMax b)
    (huniq : (occHashes t.bucket).count nd.key ≤ 1)
    (hreach : hashReachable t nd = true) :
    bucketMax (tommy_hashopen_resize t b).bucket_bit = 2 ^ b ∧
    hashReachableCache (tommy_hashopen_resize t b) nd = true :=
  ⟨rfl, resize_reachable t b nd hlen hcap huniq hreach⟩

theorem claim_C3_witness :
    (tC3.bucket.length = bucketMax tC3.bucket_bit ∧
     tC3.bucket.countP isOccS ≤ bucketMax 5 ∧
     (occHashes tC3.bucket).count (⟨3, 3⟩ : HNode).key ≤ 1 ∧
     hashReachable tC3 ⟨3, 3⟩ = true) ∧
    bucketMax (tommy_hashopen_resize tC3 5).bucket_bit = 2 ^ 5 ∧
    hashReachableCache (tommy_hashopen_resize tC3 5) ⟨3, 3⟩ = true :=
  ⟨⟨by decide, by decide, by decide, by decide⟩,
    claim_C3_resize_reachable tC3 5 ⟨3, 3⟩ (by decide) (by decide) (by decide) (by decide)⟩

/-- C4: on an Empty probed slot, insert starts a one-element chain holding the
stamped node (`data`, `key = hash`), records `hash` on the slot and increments
`filled_count`; on a Tombstoned slot the same happens and `deleted_count` is
additionally decremented (`filled_count` incremented exactly once); on an
Occupied slot the stamped node — `data` and `key = hash` again — is what is
linked into the chain; and in every branch `count` grows by exactly one, also
across the grow check. -/
theorem claim_C4_insert_branches (t : Hashopen) (node : HNode) (data hash i : Nat)
    (hp : tommy_hashopen_bucket t hash = some i) :
    (t.bucket.get? i = some Slot.empty →
      tommy_hashopen_insert t node data hash =
        some (hashopen_grow_step
          { t with
              bucket := t.bucket.set i (Slot.occ [⟨data, hash⟩] hash),
              filled_count := t.filled_count + 1,
              count := t.count + 1 })) ∧
    (t.bucket.get? i = some Slot.deleted →
      tommy_hashopen_insert t node data hash =
        some (hashopen_grow_step
          { t with
              bucket := t.bucket.set i (Slot.occ [⟨data, hash⟩] hash),
              filled_count := t.filled_count + 1,
              deleted_count := t.deleted_count - 1,
              count := t.count + 1 })) ∧
    (∀ chain h0, t.bucket.get? i = some (Slot.occ chain h0) →
      tommy_hashopen_insert t node data hash =
        some (hashopen_grow_step
          { t with
              bucket := t.bucket.set i (Slot.occ (chain ++ [⟨data, hash⟩]) h0),
              count := t.count + 1 })) ∧
    (∀ t2, tommy_hashopen_insert t node data hash = some t2 → t2.count = t.count + 1) := by
  refine ⟨?_, ?_, ?_, ?_⟩
  · intro hg
    rw [tommy_hashopen_insert, insert_core_empty t node data hash i hp hg, Option.map_some']
  · intro hg
    rw [tommy_hashopen_insert, insert_core_deleted t node data hash i hp hg, Option.map_some']
  · intro chain h0 hg
    rw [tommy_hashopen_insert, insert_core_occ t node data hash i chain h0 hp hg,
      Option.map_some']
  · intro t2 h2
    rw [tommy_hashopen_insert, Option.map_eq_some'] at h2
    obtain ⟨mid, hcore, hgrow⟩ := h2
    obtain ⟨hcnt, _⟩ := insert_core_fields t node data hash mid hcore
    rw [← hgrow, grow_step_count, hcnt]

/-- A table with a tombstoned slot at index 2, used to exercise the
Tombstoned insert branch. -/
def tC4w : Hashopen :=
  { bucket_bit := 4
    bucket := (tommy_hashopen_alloc 4).set 2 Slot.deleted
    count := 0
    filled_count := 0
    deleted_count := 1 }

theorem claim_C4_witness :
    tommy_hashopen_bucket tC4w 2 = some 2 ∧
    tommy_hashopen_insert tC4w ⟨0, 0⟩ 9 2 =
      some (hashopen_grow_step
        { tC4w with
            bucket := tC4w.bucket.set 2 (Slot.occ [⟨9, 2⟩] 2),
            filled_count := tC4w.filled_count + 1,
            deleted_count := tC4w.deleted_count - 1,
            count := tC4w.count + 1 }) :=
  ⟨by decide, (claim_C4_insert_branches tC4w ⟨0, 0⟩ 9 2 2 (by decide)).2.1 (by decide)⟩

/-- C5: after every insert, with `mid` the state once the probed slot and the
counters are updated, the grow check fires exactly when
`filled_count + deleted_count >= bucket_max / 2`; when it fires the new
exponent is `ilog2(roundup_pow2(filled_count + deleted_count + 1)) + 1`, so
the new capacity is twice the smallest power of two
`>= filled_count + deleted_count + 1`; otherwise the table keeps its
capacity. -/
theorem claim_C5_grow_policy (t : Hashopen) (node : HNode) (data hash : Nat) (t2 : Hashopen)
    (h : tommy_hashopen_insert t node data hash = some t2) :
    ∃ mid, hashopen_insert_core t node data hash = some mid ∧
      mid.bucket_bit = t.bucket_bit ∧ t2 = hashopen_grow_step mid ∧
      (bucketMax mid.bucket_bit / 2 ≤ mid.filled_count + mid.deleted_count →
        t2.bucket_bit
            = tommy_ilog2_u32 (tommy_roundup_pow2_u32
                (mid.filled_count + mid.deleted_count + 1)) + 1 ∧
        bucketMax t2.bucket_bit
            = 2 * tommy_roundup_pow2_u32 (mid.filled_count + mid.deleted_count + 1)) ∧
      (mid.filled_count + mid.deleted_count < bucketMax mid.bucket_bit / 2 →
        t2 = mid ∧ t2.bucket_bit = t.bucket_bit) := by
  rw [tommy_hashopen_insert, Option.map_eq_some'] at h
  obtain ⟨mid, hcore, hgrow⟩ := h
  obtain ⟨hcnt, hbit⟩ := insert_core_fields t node data hash mid hcore
  refine ⟨mid, hcore, hbit, hgrow.symm, ?_, ?_⟩
  · intro hc
    have ht2 : t2 = tommy_hashopen_resize mid
        (tommy_ilog2_u32 (tommy_roundup_pow2_u32
          (mid.filled_count + mid.deleted_count + 1)) + 1) := by
      rw [← hgrow, hashopen_grow_step, if_pos hc]
    obtain ⟨k, hru, hle, htar⟩ := resize_target_spec (mid.filled_count + mid.deleted_count)
    constructor
    · rw [ht2]
      rfl
    · rw [ht2]
      show bucketMax (tommy_ilog2_u32 (tommy_roundup_pow2_u32
          (mid.filled_count + mid.deleted_count + 1)) + 1)
        = 2 * tommy_roundup_pow2_u32 (mid.filled_count + mid.deleted_count + 1)
      rw [htar, hru]
  · intro hc
    have ht2 : t2 = mid := by
      rw [← hgrow, hashopen_grow_step, if_neg (by omega)]
    exact ⟨ht2, by rw [ht2, hbit]⟩

/-- Seven singleton chains under hashes 0–6 at the minimum capacity: the next
insert drives the load to the grow threshold. -/
def tw5 : Hashopen :=
  { bucket_bit := 4
    bucket := [Slot.occ [⟨0, 0⟩] 0, Slot.occ [⟨1, 1⟩] 1, Slot.occ [⟨2, 2⟩] 2,
               Slot.occ [⟨3, 3⟩] 3, Slot.occ [⟨4, 4⟩] 4, Slot.occ [⟨5, 5⟩] 5,
               Slot.occ [⟨6, 6⟩] 6] ++ List.replicate 9 Slot.empty
    count := 7
    filled_count := 7
    deleted_count := 0 }

/-- The table after inserting an eighth element into `tw5`: the grow check
fires (8 >= 16/2) and the table is rehashed into 32 slots. -/
def tw5r : Hashopen :=
  { bucket_bit := 5
    bucket := [Slot.occ [⟨0, 0⟩] 0, Slot.occ [⟨1, 1⟩] 1, Slot.occ [⟨2, 2⟩] 2,
               Slot.occ [⟨3, 3⟩] 3, Slot.occ [⟨4, 4⟩] 4, Slot.occ [⟨5, 5⟩] 5,
               Slot.occ [⟨6, 6⟩] 6, Slot.occ [⟨7, 7⟩] 7] ++ List.replicate 24 Slot.empty
    count := 8
    filled_count := 8
    deleted_count := 0 }

theorem claim_C5_witness :
    tommy_hashopen_insert tw5 ⟨0, 0⟩ 7 7 = some tw5r ∧
    (∃ mid, hashopen_insert_core tw5 ⟨0, 0⟩ 7 7 = some mid ∧
      mid.bucket_bit = tw5.bucket_bit ∧ tw5r = hashopen_grow_step mid ∧
      (bucketMax mid.bucket_bit / 2 ≤ mid.filled_count + mid.deleted_count →
        tw5r.bucket_bit
            = tommy_ilog2_u32 (tommy_roundup_pow2_u32
                (mid.filled_count + mid.deleted_count + 1)) + 1 ∧
        bucketMax tw5r.bucket_bit
            = 2 * tommy_roundup_pow2_u32 (mid.filled_count + mid.deleted_count + 1)) ∧
      (mid.filled_count + mid.deleted_count < bucketMax mid.bucket_bit / 2 →
        tw5r = mid ∧ tw5r.bucket_bit = tw5.bucket_bit)) :=
  ⟨by decide, claim_C5_grow_policy tw5 ⟨0, 0⟩ 7 7 tw5r (by decide)⟩

/-- The state an in-place removal leaves behind before its shrink check: the
count dropped by one, and the slot either tombstoned (empty chain) with the
slot counters moved, or still occupied by the remaining chain — and in either
case the slot is not reset to Empty. -/
def RemovalMid (t mid : Hashopen) (i : Nat) (rest : List HNode) (h0 : Nat) : Prop :=
  mid.count = t.count - 1 ∧
  mid.bucket_bit = t.bucket_bit ∧
  (rest = [] → mid.bucket = t.bucket.set i Slot.deleted ∧
    mid.filled_count = t.filled_count - 1 ∧ mid.deleted_count = t.deleted_count + 1) ∧
  (rest ≠ [] → mid.bucket = t.bucket.set i (Slot.occ rest h0) ∧
    mid.filled_count = t.filled_count ∧ mid.deleted_count = t.deleted_count) ∧
  mid.bucket.get? i ≠ some Slot.empty

/-- C6: a successful removal — by `remove_existing` or by a matched predicate
in `remove` — decrements `count` by one, tombstones (never empties) the slot
when its chain became empty while moving `filled_count`/`deleted_count`, keeps
the slot occupied by the remaining chain otherwise, and then runs the shrink
check on that intermediate state. -/
theorem claim_C6_removal (t : Hashopen) (i : Nat) (chain : List HNode) (h0 : Nat)
    (hg : t.bucket.get? i = some (Slot.occ chain h0)) :
    (∀ node : HNode, tommy_hashopen_bucket t node.key = some i →
      ∃ mid, tommy_hashopen_remove_existing t node
          = some (hashopen_shrink_step mid, node.data) ∧
        RemovalMid t mid i (tommy_list_remove_existing chain node) h0) ∧
    (∀ (cmp : Nat → Bool) (hash : Nat) (j : HNode) (chain2 : List HNode),
      tommy_hashopen_bucket t hash = some i →
      hashopen_chain_remove cmp chain = some (j, chain2) →
      ∃ mid, tommy_hashopen_remove t cmp hash
          = some (hashopen_shrink_step mid, some j.data) ∧
        RemovalMid t mid i chain2 h0) := by
  constructor
  · intro node hp
    by_cases hch : tommy_list_remove_existing chain node = []
    · refine ⟨{ t with
          bucket := t.bucket.set i Slot.deleted,
          filled_count := t.filled_count - 1,
          deleted_count := t.deleted_count + 1,
          count := t.count - 1 }, ?_, ?_⟩
      · rw [remove_existing_occ t node i chain h0 hp hg, if_pos hch]
      · refine ⟨rfl, rfl, fun _ => ⟨rfl, rfl, rfl⟩, fun hne => absurd hch hne, ?_⟩
        exact get?_set_ne_some_empty t.bucket i Slot.deleted (by simp)
    · refine ⟨{ t with
          bucket := t.bucket.set i (Slot.occ (tommy_list_remove_existing chain node) h0),
          count := t.count - 1 }, ?_, ?_⟩
      · rw [remove_existing_occ t node i chain h0 hp hg, if_neg hch]
      · refine ⟨rfl, rfl, fun he => absurd he hch, fun _ => ⟨rfl, rfl, rfl⟩, ?_⟩
        exact get?_set_ne_some_empty t.bucket i _ (by simp)
  · intro cmp hash j chain2 hp hf
    by_cases hch : chain2 = []
    · subst hch
      refine ⟨{ t with
          bucket := t.bucket.set i Slot.deleted,
          filled_count := t.filled_count - 1,
          deleted_count := t.deleted_count + 1,
          count := t.count - 1 }, ?_, ?_⟩
      · rw [remove_occ_found t cmp hash i chain [] j h0 hp hg hf, if_pos rfl]
      · refine ⟨rfl, rfl, fun _ => ⟨rfl, rfl, rfl⟩, fun hne => absurd rfl hne, ?_⟩
        exact get?_set_ne_some_empty t.bucket i Slot.deleted (by simp)
    · refine ⟨{ t with
          bucket := t.bucket.set i (Slot.occ chain2 h0),
          count := t.count - 1 }, ?_, ?_⟩
      · rw [remove_occ_found t cmp hash i chain chain2 j h0 hp hg hf, if_neg hch]
      · refine ⟨rfl, rfl, fun he => absurd he hch, fun _ => ⟨rfl, rfl, rfl⟩, ?_⟩
        exact get?_set_ne_some_empty t.bucket i _ (by simp)

theorem claim_C6_witness :
    tC3.bucket.get? 3 = some (Slot.occ [⟨3, 3⟩] 3) ∧
    (∃ mid, tommy_hashopen_remove_existing tC3 ⟨3, 3⟩
        = some (hashopen_shrink_step mid, (⟨3, 3⟩ : HNode).data) ∧
      RemovalMid tC3 mid 3 (tommy_list_remove_existing [⟨3, 3⟩] ⟨3, 3⟩) 3) :=
  ⟨by decide, (claim_C6_removal tC3 3 [⟨3, 3⟩] 3 (by decide)).1 ⟨3, 3⟩ (by decide)⟩

/-- C7: `tommy_hashopen_resize` keeps `count` and `filled_count`, resets
`deleted_count` to 0, never copies a tombstoned slot (the new array holds no
tombstones and every non-empty new slot is literally one of the old occupied
slots, chain head and recorded hash moved as one unit), migrates every old
occupied slot (their number is preserved), and each migrated slot sits at the
index the forward wraparound scan from its hash's start-of-cache-line index
`hash & bucket_mask_cache` reaches with every earlier probed slot non-empty —
the first slot that was Empty when it was migrated. -/
theorem claim_C7_resize (t : Hashopen) (b : Nat)
    (hcap : t.bucket.countP isOccS ≤ bucketMax b) :
    (tommy_hashopen_resize t b).count = t.count ∧
    (tommy_hashopen_resize t b).filled_count = t.filled_count ∧
    (tommy_hashopen_resize t b).deleted_count = 0 ∧
    (tommy_hashopen_resize t b).bucket.countP isDelS = 0 ∧
    (tommy_hashopen_resize t b).bucket.countP isOccS = t.bucket.countP isOccS ∧
    (∀ k s, (tommy_hashopen_resize t b).bucket.get? k = some s →
      s = Slot.empty ∨ (isOccS s = true ∧ s ∈ t.bucket)) ∧
    (∀ k chain h, (tommy_hashopen_resize t b).bucket.get? k = some (Slot.occ chain h) →
      ∃ m, m < bucketMax b ∧
        k = (cacheLineStart (bucketMax b) h + m) % bucketMax b ∧
        ∀ j, j < m → ∃ s2,
          (tommy_hashopen_resize t b).bucket.get?
              ((cacheLineStart (bucketMax b) h + j) % bucketMax b) = some s2 ∧
          isEmptyS s2 = false) := by
  have hinv := placeMid_resize t b hcap
  have hpath := hinv.hpath
  rw [hinv.hlen] at hpath
  exact ⟨rfl, rfl, rfl, hinv.hdel, hinv.hocc, hinv.hprov, hpath⟩

theorem claim_C7_witness :
    tC3.bucket.countP isOccS ≤ bucketMax 5 ∧
    (tommy_hashopen_resize tC3 5).count = tC3.count ∧
    (tommy_hashopen_resize tC3 5).bucket.countP isDelS = 0 ∧
    (tommy_hashopen_resize tC3 5).bucket.countP isOccS = tC3.bucket.countP isOccS ∧
    (∃ m, m < bucketMax 5 ∧
      (0 : Nat) = (cacheLineStart (bucketMax 5) 3 + m) % bucketMax 5 ∧
      ∀ j, j < m → ∃ s2,
        (tommy_hashopen_resize tC3 5).bucket.get?
            ((cacheLineStart (bucketMax 5) 3 + j) % bucketMax 5) = some s2 ∧
        isEmptyS s2 = false) := by
  have h := claim_C7_resize tC3 5 (by decide)
  refine ⟨by decide, h.1, h.2.2.2.1, h.2.2.2.2.1, ?_⟩
  exact h.2.2.2.2.2.2 0 [⟨3, 3⟩] 3 (by decide)

/-- C8: inserting under the hash recorded on an occupied probed slot appends
the stamped node at the chain's tail, leaving `filled_count`/`deleted_count`
untouched (only `bucket` and `count` change); consequently removing by a
predicate from a two-element chain whose first element matches unlinks and
returns exactly the first element in chain (insertion) order and leaves the
slot occupied by the second. -/
theorem claim_C8_chain_order (t : Hashopen) (i hash : Nat) (chain : List HNode) :
    (∀ (node : HNode) (data h0 : Nat),
      tommy_hashopen_bucket t hash = some i →
      t.bucket.get? i = some (Slot.occ chain h0) →
      tommy_hashopen_insert t node data hash =
        some (hashopen_grow_step
          { t with
              bucket := t.bucket.set i (Slot.occ (chain ++ [⟨data, hash⟩]) h0),
              count := t.count + 1 })) ∧
    (∀ (cmp : Nat → Bool) (a b2 : HNode) (h0 : Nat),
      tommy_hashopen_bucket t hash = some i →
      t.bucket.get? i = some (Slot.occ [a, b2] h0) →
      cmp a.data = true →
      tommy_hashopen_remove t cmp hash =
        some (hashopen_shrink_step
          { t with
              bucket := t.bucket.set i (Slot.occ [b2] h0),
              count := t.count - 1 },
          some a.data)) := by
  constructor
  · intro node data h0 hp hg
    rw [tommy_hashopen_insert, insert_core_occ t node data hash i chain h0 hp hg,
      Option.map_some']
  · intro cmp a b2 h0 hp hg hcmp
    have hf : hashopen_chain_remove cmp [a, b2] = some (a, [b2]) := by
      simp only [hashopen_chain_remove, hcmp, if_true]
    rw [remove_occ_found t cmp hash i [a, b2] [b2] a h0 hp hg hf, if_neg (by simp)]

/-- A table with a single one-element chain under hash 2. -/
def tC8 : Hashopen :=
  { bucket_bit := 4
    bucket := (tommy_hashopen_alloc 4).set 2 (Slot.occ [⟨10, 2⟩] 2)
    count := 1
    filled_count := 1
    deleted_count := 0 }

/-- `tC8` after a second insert with the same hash 2: a two-element chain in
insertion order. -/
def tC8b : Hashopen :=
  { bucket_bit := 4
    bucket := (tommy_hashopen_alloc 4).set 2 (Slot.occ [⟨10, 2⟩, ⟨11, 2⟩] 2)
    count := 2
    filled_count := 1
    deleted_count := 0 }

theorem claim_C8_witness :
    tommy_hashopen_bucket tC8 2 = some 2 ∧
    tommy_hashopen_insert tC8 ⟨0, 0⟩ 11 2 =
      some (hashopen_grow_step
        { tC8 with
            bucket := tC8.bucket.set 2 (Slot.occ ([⟨10, 2⟩] ++ [⟨11, 2⟩]) 2),
            count := tC8.count + 1 }) ∧
    tommy_hashopen_remove tC8b (fun d => d == 10 || d == 11) 2 =
      some (hashopen_shrink_step
        { tC8b with
            bucket := tC8b.bucket.set 2 (Slot.occ [⟨11, 2⟩] 2),
            count := tC8b.count - 1 },
        some 10) :=
  ⟨by decide,
   (claim_C8_chain_order tC8 2 2 [⟨10, 2⟩]).1 ⟨0, 0⟩ 11 2 (by decide) (by decide),
   (claim_C8_chain_order tC8b 2 2 [⟨10, 2⟩, ⟨11, 2⟩]).2 (fun d => d == 10 || d == 11)
     ⟨10, 2⟩ ⟨11, 2⟩ 2 (by decide) (by decide) (by decide)⟩

/-- C9: the memory-usage report is exactly capacity times the slot size plus
element count times the node size; the allocation itself requests one extra
cache line of slots (the padding overrun the report excludes); and doubling
the capacity at unchanged count raises the report by exactly the bucket-array
term. -/
theorem claim_C9_memory_usage (t t2 : Hashopen)
    (hbit : t2.bucket_bit = t.bucket_bit + 1) (hcount : t2.count = t.count) :
    tommy_hashopen_memory_usage t
        = bucketMax t.bucket_bit * sizeof_hashopen_pos
          + t.count * sizeof_hashopen_node ∧
    hashopen_alloc_entries t.bucket_bit * sizeof_hashopen_pos
        = bucketMax t.bucket_bit * sizeof_hashopen_pos
          + entries_for_cache_line * sizeof_hashopen_pos ∧
    tommy_hashopen_memory_usage t2
        = tommy_hashopen_memory_usage t + bucketMax t.bucket_bit * sizeof_hashopen_pos := by
  refine ⟨rfl, ?_, ?_⟩
  · rw [hashopen_alloc_entries]
    ring
  · rw [tommy_hashopen_memory_usage, tommy_hashopen_memory_usage, hbit, hcount]
    rw [bucketMax, bucketMax, pow_succ]
    ring

/-- `tommy_hashopen_init` with the capacity exponent raised by one, count
unchanged. -/
def tC9b : Hashopen :=
  { tommy_hashopen_init with bucket_bit := TOMMY_HASHOPEN_BIT + 1 }

theorem claim_C9_witness :
    tC9b.bucket_bit = tommy_hashopen_init.bucket_bit + 1 ∧
    tC9b.count = tommy_hashopen_init.count ∧
    tommy_hashopen_memory_usage tC9b
      = tommy_hashopen_memory_usage tommy_hashopen_init
        + bucketMax tommy_hashopen_init.bucket_bit * sizeof_hashopen_pos :=
  ⟨by decide, by decide,
    (claim_C9_memory_usage tommy_hashopen_init tC9b (by decide) (by decide)).2.2⟩

/-- C10: whenever `tommy_hashopen_remove` reports "not found" (payload
`none`) — the probed slot was Empty or Tombstoned, or the chain had no
predicate match — the table it returns is the unchanged input table: every
counter, the capacity and every slot are identical, and no shrink check or
resize has run. -/
theorem claim_C10_remove_miss (t : Hashopen) (cmp : Nat → Bool) (hash : Nat)
    (t2 : Hashopen) (h : tommy_hashopen_remove t cmp hash = some (t2, none)) : t2 = t :=
  remove_none_unchanged t cmp hash t2 h

theorem claim_C10_witness :
    tommy_hashopen_remove tommy_hashopen_init (fun _ => true) 0
        = some (tommy_hashopen_init, none) ∧
    tommy_hashopen_init = tommy_hashopen_init :=
  ⟨by decide,
    claim_C10_remove_miss tommy_hashopen_init (fun _ => true) 0 tommy_hashopen_init
      (by decide)⟩
